import Mathlib

/-!
# Block-pipelined Mandelbrot renderer and the `Data` container

A shallow embedding of the C++ examples of the OpenACC best-practices guide:

* `examples/mandelbrot/cpp/task2/constants.h`      (`Config`, `constants`)
* `examples/mandelbrot/cpp/original/mandelbrot.cpp` (`mandelbrot`)
* `examples/mandelbrot/cpp/original/main.cpp`       (`original.main`)
* `examples/mandelbrot/cpp/task4/main_solution.cpp` (`task4.main`)
* `examples/mandelbrot/cpp/task5.multithread/main.cpp` (`task5.main`)
* `examples/class-data.cpp`                         (`Data`)

Conventions of the embedding.

* `unsigned int` values are naturals below `2^32`; every unsigned operation is
  reduced modulo `2^32` (`u32`).  `int` values are integers; conversions between
  the two are `toU32` and `toInt32`.
* `double` values are rationals; every floating operation rounds its exact
  result with a rounding function `rnd`, which is a parameter (`IsRounding`
  says what is assumed of it, `binary64` is the rounding of IEEE 754).
* Inside `#pragma acc data create(image[...])` the program has two copies of
  `image` (`Mem`): the compute regions store into the device copy and
  `update self` copies a slice of it to the host copy, which is what `fwrite`
  reads.  The directives with an `async` clause are operations (`Op`) issued
  on queues; the operations of one queue are executed in the order of issue,
  those of different queues in an order the runtime chooses (`serve`), and
  `#pragma acc wait` completes what is pending.  A region without `async`
  (the loop of `original`) is executed where it stands.
* An integer division by zero and a store outside the allocated block are
  faults (`Fault`).
-/

set_option autoImplicit false

/-! ## Machine integers -/

/-- Reduction of an unsigned 32-bit result. -/
def u32 (n : Nat) : Nat := n % 4294967296

/-- Reduction of a 64-bit `size_t` result. -/
def u64 (n : Nat) : Nat := n % 18446744073709551616

/-- Conversion `int → unsigned int`. -/
def toU32 (i : Int) : Nat := (i % 4294967296).toNat

/-- Conversion `unsigned int → int` (two's complement). -/
def toInt32 (n : Nat) : Int :=
  if n % 4294967296 < 2147483648 then ((n % 4294967296 : Nat) : Int)
  else ((n % 4294967296 : Nat) : Int) - 4294967296

/-- Values taken by `v` in `for (int v = lo; v < hi; v++)`. -/
def forInt (lo hi : Int) : List Int :=
  (List.range (hi - lo).toNat).map (fun (k : Nat) => lo + (k : Int))

/-! ## Faults -/

/-- Run-time faults of the embedded programs. -/
inductive Fault where
  | divideByZero
  | outOfBounds
  deriving DecidableEq, Repr

/-! ## `constants.h` -/

/-- The configuration constants of `constants.h`.  The four `unsigned int`
constants are naturals, the corners of the rectangle are the decimal literals
of the header (rounded to `double` where they are used). -/
structure Config where
  WIDTH : Nat
  HEIGHT : Nat
  MAX_ITERS : Nat
  MAX_COLOR : Nat
  xmin : ℚ
  xmax : ℚ
  ymin : ℚ
  ymax : ℚ

/-- The values of `task2/constants.h`. -/
def constants : Config where
  WIDTH := 16384
  HEIGHT := 16384
  MAX_ITERS := 50
  MAX_COLOR := 255
  xmin := -17 / 10
  xmax := 5 / 10
  ymin := -12 / 10
  ymax := 12 / 10

/-- Configurations whose image has at least one pixel and whose pixel count
fits a (signed) `int`; `constants` is one. -/
def Config.fits (c : Config) : Prop :=
  0 < c.WIDTH ∧ 0 < c.HEIGHT ∧ c.WIDTH * c.HEIGHT < 2147483648

instance (c : Config) : Decidable c.fits := by
  unfold Config.fits
  exact inferInstance

/-! ## `double` arithmetic -/

/-- What the kernel needs of the rounding of `double` arithmetic: integers of
magnitude at most `2^53` are represented exactly, and in the normal range a
rounded result differs from the exact one by a relative error of at most
`2^-52`.  Every rounding mode of IEEE 754 binary64 arithmetic satisfies both. -/
def IsRounding (rnd : ℚ → ℚ) : Prop :=
  (∀ n : ℤ, |n| ≤ 2 ^ 53 → rnd (n : ℚ) = (n : ℚ)) ∧
  (∀ q : ℚ, 1 / 2 ^ 1022 ≤ |q| → |q| ≤ 2 ^ 1023 → |rnd q - q| * 2 ^ 52 ≤ |q|)

/-- Rounding of a rational to the nearest integer, ties to the even one. -/
def roundEven (x : ℚ) : ℤ :=
  if x - (Int.floor x : ℚ) < 1 / 2 then Int.floor x
  else if 1 / 2 < x - (Int.floor x : ℚ) then Int.floor x + 1
  else if Int.floor x % 2 = 0 then Int.floor x else Int.floor x + 1

/-- Rounding to IEEE 754 binary64 in the default mode (to nearest, ties to
even): 53 significant bits, least exponent `-1022`.  Results beyond the largest
finite `double` are not turned into infinities; the kernel produces none. -/
def binary64 (q : ℚ) : ℚ :=
  (roundEven (q / 2 ^ (max (Int.log 2 |q|) (-1022) - 52)) : ℚ)
    * 2 ^ (max (Int.log 2 |q|) (-1022) - 52)

/-- Source: `const double dx=(xmax-xmin)/WIDTH;` -/
def dx (rnd : ℚ → ℚ) (c : Config) : ℚ :=
  rnd (rnd (rnd c.xmax - rnd c.xmin) / (c.WIDTH : ℚ))

/-- Source: `const double dy=(ymax-ymin)/HEIGHT;` -/
def dy (rnd : ℚ → ℚ) (c : Config) : ℚ :=
  rnd (rnd (rnd c.ymax - rnd c.ymin) / (c.HEIGHT : ℚ))

/-! ## `mandelbrot.cpp` -/

/-- The `for` loop of `mandelbrot`: from the state `(x, y, i)` it returns the
value of `i` at loop exit. -/
def mandelLoop (rnd : ℚ → ℚ) (c : Config) (x0 y0 : ℚ) (x y : ℚ) (i : Nat) : Nat :=
  if h : rnd (rnd (x * x) + rnd (y * y)) < 4 ∧ i < c.MAX_ITERS then
    let xtemp := rnd (rnd (rnd (x * x) - rnd (y * y)) + x0)
    let ynew := rnd (rnd (rnd (2 * x) * y) + y0)
    mandelLoop rnd c x0 y0 xtemp ynew (i + 1)
  else i
termination_by c.MAX_ITERS - i
decreasing_by omega

/-- The iteration count `i` with which the loop of `mandelbrot(Px, Py)` ends. -/
def iterations (rnd : ℚ → ℚ) (c : Config) (Px Py : Int) : Nat :=
  let x0 := rnd (rnd c.xmin + rnd ((Px : ℚ) * dx rnd c))
  let y0 := rnd (rnd c.ymin + rnd ((Py : ℚ) * dy rnd c))
  mandelLoop rnd c x0 y0 0 0 0

/-- Conversion `double → unsigned char`: truncation toward zero, kept to
eight bits. -/
def toUChar (q : ℚ) : Nat :=
  (Int.toNat (if 0 ≤ q then Int.floor q else Int.ceil q)) % 256

/-- Source: `unsigned char mandelbrot(int Px, int Py)`; the returned expression is
`(double)MAX_COLOR*i/MAX_ITERS`. -/
def mandelbrot (rnd : ℚ → ℚ) (c : Config) (Px Py : Int) : Nat :=
  let i := iterations rnd c Px Py
  toUChar (rnd (rnd ((c.MAX_COLOR : ℚ) * (i : ℚ)) / (c.MAX_ITERS : ℚ)))

/-! ## The image buffer -/

/-- Source: `size_t bytes=WIDTH*HEIGHT*sizeof(unsigned int);` -/
def bytes (c : Config) : Nat := u64 (u32 (c.WIDTH * c.HEIGHT) * 4)

/-- Source: `malloc(n)`: a block of `n` cells whose initial contents are those of the
heap. -/
def malloc (heap : Nat → Nat) (n : Nat) : List Nat := (List.range n).map heap

/-- One store `image[idx] = v` into the allocated block. -/
def store (image : List Nat) (idx v : Nat) : Except Fault (List Nat) :=
  if idx < image.length then .ok (image.set idx v) else .error .outOfBounds

/-- A sequence of stores, in order. -/
def storeAll : List Nat → List (Nat × Nat) → Except Fault (List Nat)
  | image, [] => .ok image
  | image, w :: ws =>
    match store image w.1 w.2 with
    | .ok image1 => storeAll image1 ws
    | .error e => .error e

/-- The subscript `y*WIDTH+x` of `image[y*WIDTH+x]` (`WIDTH` is unsigned, so
the arithmetic is unsigned). -/
def flatIndex (c : Config) (x y : Int) : Nat :=
  u32 (u32 (toU32 y * c.WIDTH) + toU32 x)

/-- The stores of `for(int x=0;x<WIDTH;x++) image[y*WIDTH+x]=mandelbrot(x,y);`
as pairs (subscript, value). -/
def rowWrites (rnd : ℚ → ℚ) (c : Config) (y : Int) : List (Nat × Nat) :=
  (List.range c.WIDTH).map
    (fun (x : Nat) => (flatIndex c (x : Int) y, mandelbrot rnd c (x : Int) y))

/-- The stores of `for(int y=lo;y<hi;y++) for(int x=0;x<WIDTH;x++) ...`. -/
def computeWrites (rnd : ℚ → ℚ) (c : Config) (lo hi : Int) : List (Nat × Nat) :=
  (forInt lo hi).flatMap (rowWrites rnd c)

/-! ## Output file -/

/-- The conversion `%d` applied to an `unsigned int` argument. -/
def fmtD (v : Nat) : String := toString (toInt32 v)

/-- The bytes of a string. -/
def strBytes (s : String) : List Nat := s.toList.map Char.toNat

/-- Source: `fprintf(fp,"P5\n%s\n%d %d\n%d\n","#comment",WIDTH,HEIGHT,MAX_COLOR);` -/
def fprintfHeader (c : Config) : List Nat :=
  strBytes ("P5\n" ++ "#comment" ++ "\n" ++ fmtD c.WIDTH ++ " " ++ fmtD c.HEIGHT
    ++ "\n" ++ fmtD c.MAX_COLOR ++ "\n")

/-- Source: `fwrite(image,sizeof(unsigned char),count,fp)`. -/
def fwrite (image : List Nat) (count : Nat) : List Nat := image.take count

/-- The bytes of `image.pgm` when it is closed: the header written by the
`fprintf` at the start of `main`, then what the `fwrite` at its end appends,
`fwrite(image,sizeof(unsigned char),WIDTH*HEIGHT,fp)`. -/
def pgmFile (c : Config) (image : List Nat) : List Nat :=
  fprintfHeader c ++ fwrite image (u32 (c.WIDTH * c.HEIGHT))

/-- The header of the output format as the specification words it: the
lines `P5`, `#comment`, `<width> <height>`, `<max>` with the numbers in
decimal. -/
def pgmHeader (width height max : Nat) : String :=
  "P5\n#comment\n" ++ toString width ++ " " ++ toString height ++ "\n"
    ++ toString max ++ "\n"

/-- The configuration of the serialisation scenario of the specification: a
2×2 image with `MAX_COLOR = 255`. -/
def scenario2x2 : Config where
  WIDTH := 2
  HEIGHT := 2
  MAX_ITERS := 50
  MAX_COLOR := 255
  xmin := -17 / 10
  xmax := 5 / 10
  ymin := -12 / 10
  ymax := 12 / 10

/-- What a run of `main` leaves behind: the host buffer and the bytes of
`image.pgm`. -/
structure Run where
  image : List Nat
  file : List Nat
  deriving DecidableEq, Repr

/-! ## `original/main.cpp` -/

/-- Function `main` of `original/main.cpp`.  Its two regions have no `async`
clause: each is complete, with its result in the host buffer, when the next
statement runs. -/
def original.main (rnd : ℚ → ℚ) (c : Config) (heap : Nat → Nat) : Except Fault Run :=
  let image0 := malloc heap (bytes c)
  match store image0 0 0 with
  | .error e => .error e
  | .ok image1 =>
    match storeAll image1 (computeWrites rnd c 0 (c.HEIGHT : Int)) with
    | .error e => .error e
    | .ok image2 => .ok ⟨image2, pgmFile c image2⟩

/-! ## The block loop of `task4/main_solution.cpp` and `task5.multithread/main.cpp` -/

/-- The quotient `HEIGHT/num_blocks` (unsigned division). -/
def rowsPerBlock (c : Config) (num_blocks : Int) : Nat :=
  c.HEIGHT / toU32 num_blocks

/-- Source: `int start = block * (HEIGHT/num_blocks)`. -/
def start (c : Config) (num_blocks : Int) (block : Nat) : Int :=
  toInt32 (u32 (toU32 (block : Int) * rowsPerBlock c num_blocks))

/-- Source: `end = start + (HEIGHT/num_blocks)`. -/
def end_ (c : Config) (num_blocks : Int) (block : Nat) : Int :=
  toInt32 (u32 (toU32 (start c num_blocks block) + rowsPerBlock c num_blocks))

/-- Source: `block_size = (HEIGHT/num_blocks)*WIDTH`. -/
def block_size (c : Config) (num_blocks : Int) : Int :=
  toInt32 (u32 (rowsPerBlock c num_blocks * c.WIDTH))

/-- Values taken by `block` in
`for(int block = 0; block < num_blocks; block++ )`. -/
def blocks (num_blocks : Int) : List Nat := List.range num_blocks.toNat

/-- The stores of the compute loop of one block. -/
def blockWrites (rnd : ℚ → ℚ) (c : Config) (num_blocks : Int) (block : Nat) :
    List (Nat × Nat) :=
  computeWrites rnd c (start c num_blocks block) (end_ c num_blocks block)

/-- The stores of the whole block loop, in program order. -/
def renderWrites (rnd : ℚ → ℚ) (c : Config) (num_blocks : Int) : List (Nat × Nat) :=
  (blocks num_blocks).flatMap (blockWrites rnd c num_blocks)

/-- The operations which the directives of the block loop issue. -/
inductive Op where
  | updateDevice (queue : Nat) (offset : Int) (len : Int)
  | parallelLoop (queue : Nat) (lo : Int) (hi : Int)
  | updateSelf (queue : Nat) (offset : Int) (len : Int)
  deriving DecidableEq, Repr

/-- The `async` queue of an operation. -/
def Op.queue : Op → Nat
  | .updateDevice q _ _ => q
  | .parallelLoop q _ _ => q
  | .updateSelf q _ _ => q

/-- The directives of one iteration of the block loop of `task4`:
`parallel loop async(block%4)` and
`update self(image[block*block_size:block_size]) async(block%2)`. -/
def task4.blockOps (c : Config) (num_blocks : Int) (block : Nat) : List Op :=
  [ .parallelLoop (block % 4) (start c num_blocks block) (end_ c num_blocks block),
    .updateSelf (block % 2) ((block : Int) * block_size c num_blocks)
      (block_size c num_blocks) ]

/-- The directives of one iteration of the block loop of `task5`:
`update device(...) async(block)`, `parallel loop async(block)` and
`update self(...) async(block)`. -/
def task5.blockOps (c : Config) (num_blocks : Int) (block : Nat) : List Op :=
  [ .updateDevice block ((block : Int) * block_size c num_blocks)
      (block_size c num_blocks),
    .parallelLoop block (start c num_blocks block) (end_ c num_blocks block),
    .updateSelf block ((block : Int) * block_size c num_blocks)
      (block_size c num_blocks) ]

/-- All operations issued by the block loop of `task4`. -/
def task4.issued (c : Config) (num_blocks : Int) : List Op :=
  (blocks num_blocks).flatMap (task4.blockOps c num_blocks)

/-- All operations issued by the block loop of `task5`. -/
def task5.issued (c : Config) (num_blocks : Int) : List Op :=
  (blocks num_blocks).flatMap (task5.blockOps c num_blocks)

/-- The compute loops of the block loop, in program order, applied to the
buffer they store into. -/
def render (rnd : ℚ → ℚ) (c : Config) (num_blocks : Int) (image : List Nat) :
    Except Fault (List Nat) :=
  storeAll image (renderWrites rnd c num_blocks)

/-- The warm-up region of `task4`: `for (i = 0; i < 2; i++) image[i] = 0;`. -/
def task4.warmup (image : List Nat) : Except Fault (List Nat) :=
  storeAll image [(0, 0), (1, 0)]

/-- The two copies of `image` inside the `data` region. -/
structure Mem where
  host : List Nat
  device : List Nat
  deriving DecidableEq, Repr

/-- The buffer `dst` with its cells `[off, off+len)` replaced by those of
`src`. -/
def copyCells (src dst : List Nat) (off len : Nat) : List Nat :=
  (List.range dst.length).map
    (fun (j : Nat) => if off ≤ j ∧ j < off + len then src.getD j 0 else dst.getD j 0)

/-- The effect of one operation: `parallel loop` runs its loop nest on the
device copy, `update self(image[offset:len])` copies the slice from the device
to the host, `update device(image[offset:len])` from the host to the device.
A slice that leaves either copy is a fault. -/
def Op.exec (rnd : ℚ → ℚ) (c : Config) (op : Op) (m : Mem) : Except Fault Mem :=
  match op with
  | .parallelLoop _ lo hi =>
    match storeAll m.device (computeWrites rnd c lo hi) with
    | .ok d => .ok ⟨m.host, d⟩
    | .error e => .error e
  | .updateSelf _ offset len =>
    if 0 ≤ offset ∧ 0 ≤ len ∧ offset + len ≤ (m.device.length : Int)
        ∧ offset + len ≤ (m.host.length : Int) then
      .ok ⟨copyCells m.device m.host offset.toNat len.toNat, m.device⟩
    else .error .outOfBounds
  | .updateDevice _ offset len =>
    if 0 ≤ offset ∧ 0 ≤ len ∧ offset + len ≤ (m.device.length : Int)
        ∧ offset + len ≤ (m.host.length : Int) then
      .ok ⟨m.host, copyCells m.host m.device offset.toNat len.toNat⟩
    else .error .outOfBounds

/-- A list of operations executed one after the other. -/
def execAll (rnd : ℚ → ℚ) (c : Config) : List Op → Mem → Except Fault Mem
  | [], m => .ok m
  | op :: ops, m =>
    match op.exec rnd c m with
    | .ok m1 => execAll rnd c ops m1
    | .error e => .error e

/-- The oldest pending operation of queue `q`, and what stays pending. -/
def takeQueue (q : Nat) : List Op → Option (Op × List Op)
  | [] => none
  | op :: ops =>
    if op.queue = q then some (op, ops)
    else
      match takeQueue q ops with
      | some (o, rest) => some (o, op :: rest)
      | none => none

/-- The order in which the issued operations are executed when the runtime
serves the queues in the order `picks`: each pick executes the oldest pending
operation of that queue (nothing if the queue is empty); what is pending after
the last pick is completed by `#pragma acc wait`, in the order of issue.  The
operations of one queue keep their order of issue. -/
def serve : List Nat → List Op → List Op
  | [], pending => pending
  | q :: picks, pending =>
    match takeQueue q pending with
    | some (o, rest) => o :: serve picks rest
    | none => serve picks pending

/-- Function `main` of `task4/main_solution.cpp`; `arg` is `atoi(argv[1])` when
`argc > 1`, `heap` and `devHeap` are what the allocated host and device memory
hold, `picks` is the order in which the runtime serves the queues.  The two
warm-up regions are complete when the block loop starts. -/
def task4.main (rnd : ℚ → ℚ) (c : Config) (arg : Option Int) (heap devHeap : Nat → Nat)
    (picks : List Nat) : Except Fault Run :=
  let image0 := malloc heap (bytes c)
  match task4.warmup image0 with
  | .error e => .error e
  | .ok image1 =>
    let num_blocks : Int := match arg with
      | some n => n
      | none => 16
    if toU32 num_blocks = 0 then .error .divideByZero
    else
      let device0 := malloc devHeap (u32 (c.WIDTH * c.HEIGHT))
      match execAll rnd c (serve picks (task4.issued c num_blocks)) ⟨image1, device0⟩ with
      | .error e => .error e
      | .ok m => .ok ⟨m.host, pgmFile c m.host⟩

/-- Function `main` of `task5.multithread/main.cpp` (`num_blocks = 8`), with
`heap`, `devHeap` and `picks` as for `task4.main`. -/
def task5.main (rnd : ℚ → ℚ) (c : Config) (heap devHeap : Nat → Nat) (picks : List Nat) :
    Except Fault Run :=
  let image0 := malloc heap (bytes c)
  let num_blocks : Int := 8
  let device0 := malloc devHeap (u32 (c.WIDTH * c.HEIGHT))
  match execAll rnd c (serve picks (task5.issued c num_blocks)) ⟨image0, device0⟩ with
  | .error e => .error e
  | .ok m => .ok ⟨m.host, pgmFile c m.host⟩

/-- The value the loop nest stores into cell `j`: `mandelbrot(x,y)` for
`j = y*WIDTH+x`. -/
def pixelAt (rnd : ℚ → ℚ) (c : Config) (j : Nat) : Nat :=
  mandelbrot rnd c ((j % c.WIDTH : Nat) : Int) ((j / c.WIDTH : Nat) : Int)

/-- Operations whose rows lie in `[0, HEIGHT]` and whose slices lie in the
`WIDTH*HEIGHT` cells of the image. -/
def Op.inBounds (c : Config) : Op → Prop
  | .parallelLoop _ lo hi => 0 ≤ lo ∧ lo ≤ hi ∧ hi ≤ (c.HEIGHT : Int)
  | .updateSelf _ offset len =>
    0 ≤ offset ∧ 0 ≤ len ∧ offset + len ≤ ((c.WIDTH * c.HEIGHT : Nat) : Int)
  | .updateDevice _ offset len =>
    0 ≤ offset ∧ 0 ≤ len ∧ offset + len ≤ ((c.WIDTH * c.HEIGHT : Nat) : Int)

instance (c : Config) (op : Op) : Decidable (op.inBounds c) := by
  cases op <;> unfold Op.inBounds <;> exact inferInstance

/-- What an operation within bounds does to the cell `j` of the two copies,
given as the pair (host cell, device cell); `p` is the pixel of the cell. -/
def cellStep (c : Config) (p : Nat) (j : Nat) (cell : Option Nat × Option Nat) (op : Op) :
    Option Nat × Option Nat :=
  match op with
  | .parallelLoop _ lo hi =>
    if lo * (c.WIDTH : Int) ≤ (j : Int) ∧ (j : Int) < hi * (c.WIDTH : Int) then
      (cell.1, some p)
    else cell
  | .updateSelf _ offset len =>
    if offset ≤ (j : Int) ∧ (j : Int) < offset + len then (cell.2, cell.2) else cell
  | .updateDevice _ offset len =>
    if offset ≤ (j : Int) ∧ (j : Int) < offset + len then (cell.1, cell.1) else cell

/-! ## `class-data.cpp` -/

/-- The class `Data<ctype>`: the length and the cells of the array. -/
structure Data (ctype : Type) where
  len : Int
  arr : List ctype

/-- The constructor `Data(int length)`: `new ctype[len]` fails for a negative
length; the cells hold what the memory held. -/
def Data.new {ctype : Type} (length : Int) (cells : Nat → ctype) : Option (Data ctype) :=
  if length < 0 then none
  else some ⟨length, (List.range length.toNat).map cells⟩

/-- Source: `int size()`. -/
def Data.size {ctype : Type} (d : Data ctype) : Int := d.len

/-- Source: `ctype &operator[](int i)`; `none` is an access outside the array. -/
def Data.subscript {ctype : Type} (d : Data ctype) (i : Int) : Option ctype :=
  if i < 0 ∨ i ≥ d.len then d.arr[0]? else d.arr[i.toNat]?

/-! ## Machine arithmetic without wrap-around -/

theorem u32_of_lt {n : Nat} (h : n < 4294967296) : u32 n = n := by
  unfold u32; omega

theorem toU32_natCast {n : Nat} (h : n < 4294967296) : toU32 (n : Int) = n := by
  unfold toU32; omega

theorem toInt32_of_lt {n : Nat} (h : n < 2147483648) : toInt32 n = (n : Int) := by
  unfold toInt32
  have h1 : n % 4294967296 = n := by omega
  rw [h1, if_pos h]

theorem toU32_pos_of_pos {i : Int} (h1 : 1 ≤ i) (h2 : i < 2147483648) :
    toU32 i = i.toNat := by
  unfold toU32; omega

theorem toU32_eq_zero_iff {i : Int} (h1 : -2147483648 ≤ i) (h2 : i < 2147483648) :
    toU32 i = 0 ↔ i = 0 := by
  unfold toU32; omega

theorem mem_forInt {lo hi y : Int} : y ∈ forInt lo hi ↔ lo ≤ y ∧ y < hi := by
  unfold forInt
  simp only [List.mem_map, List.mem_range]
  constructor
  · rintro ⟨k, hk, rfl⟩
    omega
  · rintro ⟨h1, h2⟩
    exact ⟨(y - lo).toNat, by omega, by omega⟩

theorem forInt_natCast (a n : Nat) :
    forInt (a : Int) ((a + n : Nat) : Int)
      = (List.range n).map (fun (k : Nat) => ((a + k : Nat) : Int)) := by
  unfold forInt
  have h : (((a + n : Nat) : Int) - (a : Int)).toNat = n := by omega
  rw [h]
  apply List.map_congr_left
  intro k _
  push_cast
  rfl

theorem forInt_zero (n : Nat) :
    forInt 0 (n : Int) = (List.range n).map (fun (k : Nat) => (k : Int)) := by
  have h := forInt_natCast 0 n
  simpa using h

/-! ## The rows of a block -/

theorem height_lt_of_fits {c : Config} (hc : c.fits) : c.HEIGHT < 2147483648 := by
  obtain ⟨hw, _, hwh⟩ := hc
  have : c.HEIGHT ≤ c.WIDTH * c.HEIGHT := Nat.le_mul_of_pos_left _ hw
  omega

theorem width_lt_of_fits {c : Config} (hc : c.fits) : c.WIDTH < 2147483648 := by
  obtain ⟨_, hh, hwh⟩ := hc
  have : c.WIDTH ≤ c.WIDTH * c.HEIGHT := Nat.le_mul_of_pos_right _ hh
  omega

theorem rowsPerBlock_eq {c : Config} {num_blocks : Int}
    (h1 : 1 ≤ num_blocks) (h2 : num_blocks < 2147483648) :
    rowsPerBlock c num_blocks = c.HEIGHT / num_blocks.toNat := by
  unfold rowsPerBlock
  rw [toU32_pos_of_pos h1 h2]

theorem block_rows_le {H B b : Nat} (hb : b < B) : b * (H / B) + H / B ≤ H := by
  have h1 : (b + 1) * (H / B) ≤ B * (H / B) := Nat.mul_le_mul_right _ hb
  have h2 : B * (H / B) ≤ H := Nat.mul_div_le H B
  have h3 : (b + 1) * (H / B) = b * (H / B) + H / B := by ring
  omega

theorem start_eq {c : Config} {num_blocks : Int} {block : Nat} (hc : c.fits)
    (h1 : 1 ≤ num_blocks) (h2 : num_blocks < 2147483648) (hb : block < num_blocks.toNat) :
    start c num_blocks block = ((block * (c.HEIGHT / num_blocks.toNat) : Nat) : Int) := by
  have hH := height_lt_of_fits hc
  have hle := block_rows_le (H := c.HEIGHT) hb
  unfold start
  rw [rowsPerBlock_eq h1 h2]
  generalize c.HEIGHT / num_blocks.toNat = q at *
  generalize hp : block * q = p at *
  rw [toU32_natCast (by omega), hp, u32_of_lt (by omega), toInt32_of_lt (by omega)]

theorem end_eq {c : Config} {num_blocks : Int} {block : Nat} (hc : c.fits)
    (h1 : 1 ≤ num_blocks) (h2 : num_blocks < 2147483648) (hb : block < num_blocks.toNat) :
    end_ c num_blocks block
      = ((block * (c.HEIGHT / num_blocks.toNat) + c.HEIGHT / num_blocks.toNat : Nat) : Int) := by
  have hH := height_lt_of_fits hc
  have hle := block_rows_le (H := c.HEIGHT) hb
  unfold end_
  rw [start_eq hc h1 h2 hb, rowsPerBlock_eq h1 h2]
  generalize c.HEIGHT / num_blocks.toNat = q at *
  generalize hp : block * q = p at *
  rw [toU32_natCast (by omega), u32_of_lt (by omega), toInt32_of_lt (by omega)]

theorem block_size_eq {c : Config} {num_blocks : Int} (hc : c.fits)
    (h1 : 1 ≤ num_blocks) (h2 : num_blocks < 2147483648) :
    block_size c num_blocks = ((c.HEIGHT / num_blocks.toNat * c.WIDTH : Nat) : Int) := by
  have h3 : c.HEIGHT / num_blocks.toNat * c.WIDTH ≤ c.WIDTH * c.HEIGHT := by
    rw [Nat.mul_comm c.WIDTH]
    exact Nat.mul_le_mul_right _ (Nat.div_le_self _ _)
  have h4 := hc.2.2
  unfold block_size
  rw [rowsPerBlock_eq h1 h2]
  generalize c.HEIGHT / num_blocks.toNat * c.WIDTH = p at *
  rw [u32_of_lt (by omega), toInt32_of_lt (by omega)]

theorem block_forInt {c : Config} {num_blocks : Int} {block : Nat} (hc : c.fits)
    (h1 : 1 ≤ num_blocks) (h2 : num_blocks < 2147483648) (hb : block < num_blocks.toNat) :
    forInt (start c num_blocks block) (end_ c num_blocks block)
      = (List.range (c.HEIGHT / num_blocks.toNat)).map
          (fun (k : Nat) => ((block * (c.HEIGHT / num_blocks.toNat) + k : Nat) : Int)) := by
  rw [start_eq hc h1 h2 hb, end_eq hc h1 h2 hb, forInt_natCast]

theorem range_blocks (B q : Nat) :
    (List.range B).flatMap (fun (b : Nat) => (List.range q).map (fun (k : Nat) => b * q + k))
      = List.range (B * q) := by
  induction B with
  | zero => simp
  | succ n ih =>
    rw [List.range_succ, List.flatMap_append, ih, Nat.succ_mul, List.range_add]
    simp

/-- The rows visited by the block loop, in program order, are the rows
`0, 1, ..., num_blocks*(HEIGHT/num_blocks) - 1`. -/
theorem rows_of_blocks {c : Config} {num_blocks : Int} (hc : c.fits)
    (h1 : 1 ≤ num_blocks) (h2 : num_blocks < 2147483648) :
    (blocks num_blocks).flatMap
        (fun (b : Nat) => forInt (start c num_blocks b) (end_ c num_blocks b))
      = forInt 0 ((num_blocks.toNat * (c.HEIGHT / num_blocks.toNat) : Nat) : Int) := by
  have h3 : (blocks num_blocks).flatMap
        (fun (b : Nat) => forInt (start c num_blocks b) (end_ c num_blocks b))
      = (blocks num_blocks).flatMap (fun (b : Nat) =>
          (List.range (c.HEIGHT / num_blocks.toNat)).map
            (fun (k : Nat) => ((b * (c.HEIGHT / num_blocks.toNat) + k : Nat) : Int))) := by
    apply List.flatMap_congr
    intro b hb
    exact block_forInt hc h1 h2 (by simpa [blocks] using hb)
  rw [h3, forInt_zero, ← range_blocks, List.map_flatMap]
  unfold blocks
  simp [List.map_map, Function.comp_def]

/-- The block loop performs the stores of the unblocked loop over the rows
`0 .. num_blocks*(HEIGHT/num_blocks)`, in the same order. -/
theorem renderWrites_eq {rnd : ℚ → ℚ} {c : Config} {num_blocks : Int} (hc : c.fits)
    (h1 : 1 ≤ num_blocks) (h2 : num_blocks < 2147483648) :
    renderWrites rnd c num_blocks
      = computeWrites rnd c 0
          ((num_blocks.toNat * (c.HEIGHT / num_blocks.toNat) : Nat) : Int) := by
  unfold renderWrites blockWrites computeWrites
  rw [← rows_of_blocks hc h1 h2, List.flatMap_assoc]

theorem flatIndex_natCast {c : Config} {x y : Nat} (hc : c.fits)
    (hx : x < c.WIDTH) (hy : y < c.HEIGHT) :
    flatIndex c (x : Int) (y : Int) = y * c.WIDTH + x := by
  have h4 := hc.2.2
  have hH := height_lt_of_fits hc
  have hW := width_lt_of_fits hc
  have h5 : (y + 1) * c.WIDTH ≤ c.HEIGHT * c.WIDTH := Nat.mul_le_mul_right _ hy
  have h6 : (y + 1) * c.WIDTH = y * c.WIDTH + c.WIDTH := by ring
  have h7 : c.HEIGHT * c.WIDTH = c.WIDTH * c.HEIGHT := Nat.mul_comm _ _
  unfold flatIndex
  rw [toU32_natCast (by omega), toU32_natCast (by omega)]
  generalize y * c.WIDTH = p at *
  rw [u32_of_lt (n := p) (by omega), u32_of_lt (by omega)]

theorem flat_lt {W H x y : Nat} (hx : x < W) (hy : y < H) : y * W + x < W * H := by
  have h5 : (y + 1) * W ≤ H * W := Nat.mul_le_mul_right _ hy
  have h6 : (y + 1) * W = y * W + W := by ring
  have h7 : H * W = W * H := Nat.mul_comm _ _
  omega

/-- The stores of the loop nest over the rows `0 .. n` with `n ≤ HEIGHT`. -/
theorem mem_computeWrites (rnd : ℚ → ℚ) {c : Config} {n : Nat} (hc : c.fits)
    (hn : n ≤ c.HEIGHT) (w : Nat × Nat) :
    w ∈ computeWrites rnd c 0 (n : Int) ↔
      ∃ y x : Nat, y < n ∧ x < c.WIDTH ∧
        w = (y * c.WIDTH + x, mandelbrot rnd c (x : Int) (y : Int)) := by
  unfold computeWrites rowWrites
  rw [forInt_zero]
  simp only [List.mem_flatMap, List.mem_map, List.mem_range]
  constructor
  · rintro ⟨_, ⟨y, hy, rfl⟩, x, hx, rfl⟩
    exact ⟨y, x, hy, hx, by rw [flatIndex_natCast hc hx (by omega)]⟩
  · rintro ⟨y, x, hy, hx, rfl⟩
    exact ⟨(y : Int), ⟨y, hy, rfl⟩, x, hx, by rw [flatIndex_natCast hc hx (by omega)]⟩

/-! ## Stores -/

/-- A sequence of in-bounds stores whose values are a function `f` of the
subscript succeeds; afterwards a cell holds `f` of its subscript when it was
stored to and its old value otherwise. -/
theorem storeAll_spec (f : Nat → Nat) :
    ∀ (ws : List (Nat × Nat)) (image : List Nat),
      (∀ w ∈ ws, w.1 < image.length ∧ w.2 = f w.1) →
      ∃ r, storeAll image ws = .ok r ∧ r.length = image.length ∧
        ∀ j, r[j]? = if j ∈ ws.map Prod.fst then some (f j) else image[j]? := by
  intro ws
  induction ws with
  | nil =>
    intro image _
    exact ⟨image, rfl, rfl, by simp⟩
  | cons w ws ih =>
    intro image h
    have hw := h w (List.mem_cons_self _ _)
    have hws : ∀ v ∈ ws, v.1 < (image.set w.1 w.2).length ∧ v.2 = f v.1 := by
      intro v hv
      rw [List.length_set]
      exact h v (List.mem_cons_of_mem _ hv)
    obtain ⟨r, hr, hlen, hget⟩ := ih (image.set w.1 w.2) hws
    refine ⟨r, ?_, ?_, ?_⟩
    · simp only [storeAll, store, if_pos hw.1]
      exact hr
    · rw [hlen, List.length_set]
    · intro j
      rw [hget j, List.getElem?_set]
      by_cases hj : j ∈ ws.map Prod.fst
      · simp [hj]
      · by_cases hwj : w.1 = j
        · subst hwj
          simp [hw.1, hw.2]
        · have hne : j ≠ w.1 := fun e => hwj e.symm
          simp [hj, hwj, hne]

theorem div_mod_flat {W x y : Nat} (hx : x < W) :
    (y * W + x) % W = x ∧ (y * W + x) / W = y := by
  constructor
  · rw [Nat.add_comm, Nat.add_mul_mod_self_right, Nat.mod_eq_of_lt hx]
  · rw [Nat.add_comm, Nat.add_mul_div_right _ _ (by omega), Nat.div_eq_of_lt hx, Nat.zero_add]

/-- The loop nest over the rows `0 .. n` applied to a buffer of at least
`WIDTH*HEIGHT` cells: it succeeds, the cell `y*WIDTH+x` of every row `y < n`
holds `mandelbrot(x,y)`, and the cells from `n*WIDTH` on are unchanged. -/
theorem storeAll_computeWrites (rnd : ℚ → ℚ) {c : Config} {n : Nat} (image : List Nat)
    (hc : c.fits) (hn : n ≤ c.HEIGHT) (hlen : c.WIDTH * c.HEIGHT ≤ image.length) :
    ∃ r, storeAll image (computeWrites rnd c 0 (n : Int)) = .ok r ∧
      r.length = image.length ∧
      (∀ y x : Nat, y < n → x < c.WIDTH →
        r[y * c.WIDTH + x]? = some (mandelbrot rnd c (x : Int) (y : Int))) ∧
      (∀ j, n * c.WIDTH ≤ j → r[j]? = image[j]?) := by
  have hmem := mem_computeWrites rnd hc hn
  obtain ⟨r, hr, hl, hget⟩ := storeAll_spec
    (fun j => mandelbrot rnd c ((j % c.WIDTH : Nat) : Int) ((j / c.WIDTH : Nat) : Int))
    (computeWrites rnd c 0 (n : Int)) image (by
      intro w hw
      obtain ⟨y, x, hy, hx, rfl⟩ := (hmem w).1 hw
      have hlt := flat_lt (H := c.HEIGHT) hx (show y < c.HEIGHT by omega)
      obtain ⟨e1, e2⟩ := div_mod_flat (y := y) hx
      refine ⟨by simp only; omega, ?_⟩
      simp only [e1, e2])
  refine ⟨r, hr, hl, ?_, ?_⟩
  · intro y x hy hx
    have hin : y * c.WIDTH + x ∈ (computeWrites rnd c 0 (n : Int)).map Prod.fst :=
      List.mem_map.2 ⟨_, (hmem _).2 ⟨y, x, hy, hx, rfl⟩, rfl⟩
    obtain ⟨e1, e2⟩ := div_mod_flat (y := y) hx
    rw [hget, if_pos hin, e1, e2]
  · intro j hj
    have hout : j ∉ (computeWrites rnd c 0 (n : Int)).map Prod.fst := by
      intro hin
      obtain ⟨w, hw, rfl⟩ := List.mem_map.1 hin
      obtain ⟨y, x, hy, hx, rfl⟩ := (hmem w).1 hw
      have := flat_lt (H := n) hx hy
      have h7 : n * c.WIDTH = c.WIDTH * n := Nat.mul_comm _ _
      simp only at hj
      omega
    rw [hget, if_neg hout]

/-! ## The kernel -/

theorem mandelLoop_le (rnd : ℚ → ℚ) (c : Config) (x0 y0 : ℚ) :
    ∀ (n : Nat) (x y : ℚ) (i : Nat), c.MAX_ITERS - i = n → i ≤ c.MAX_ITERS →
      mandelLoop rnd c x0 y0 x y i ≤ c.MAX_ITERS := by
  intro n
  induction n with
  | zero =>
    intro x y i hn hi
    rw [mandelLoop]
    have : ¬ (rnd (rnd (x * x) + rnd (y * y)) < 4 ∧ i < c.MAX_ITERS) := by
      intro h
      omega
    rw [dif_neg this]
    exact hi
  | succ n ih =>
    intro x y i hn hi
    rw [mandelLoop]
    split
    · next h =>
      exact ih _ _ (i + 1) (by omega) (by omega)
    · exact hi

theorem iterations_le (rnd : ℚ → ℚ) (c : Config) (Px Py : Int) :
    iterations rnd c Px Py ≤ c.MAX_ITERS := by
  unfold iterations
  exact mandelLoop_le rnd c _ _ _ 0 0 0 rfl (Nat.zero_le _)

/-- The returned expression `(double)MAX_COLOR*i/MAX_ITERS`, converted to
`unsigned char`, is the exact integer quotient. -/
theorem toUChar_scaled {rnd : ℚ → ℚ} (hr : IsRounding rnd) {C M i : Nat}
    (hC : C ≤ 255) (hM0 : 0 < M) (hM : M < 2147483648) (hi : i ≤ M) :
    toUChar (rnd (rnd ((C : ℚ) * (i : ℚ)) / (M : ℚ))) = C * i / M := by
  have hCi : C * i ≤ 255 * 2147483648 := Nat.mul_le_mul hC (by omega)
  have e1 : rnd ((C : ℚ) * (i : ℚ)) = (C : ℚ) * (i : ℚ) := by
    have h := hr.1 ((C * i : Nat) : ℤ) (by
      rw [abs_of_nonneg (by positivity)]
      have : ((C * i : Nat) : ℤ) ≤ 255 * 2147483648 := by exact_mod_cast hCi
      norm_num at this ⊢
      linarith)
    push_cast at h
    exact h
  rw [e1]
  have hk : C * i / M ≤ 255 := by
    have h1 : C * i / M ≤ C * M / M := Nat.div_le_div_right (Nat.mul_le_mul_left C hi)
    rw [Nat.mul_div_cancel _ hM0] at h1
    omega
  have hdm : M * (C * i / M) + C * i % M = C * i := Nat.div_add_mod _ _
  have hrm : C * i % M < M := Nat.mod_lt _ hM0
  generalize C * i / M = k at *
  generalize C * i % M = r at *
  have hMq : (0 : ℚ) < (M : ℚ) := by exact_mod_cast hM0
  have hMq2 : (M : ℚ) ≤ 2147483647 := by
    have : M ≤ 2147483647 := by omega
    exact_mod_cast this
  have hq : (C : ℚ) * (i : ℚ) / (M : ℚ) = (k : ℚ) + (r : ℚ) / (M : ℚ) := by
    have h : ((C * i : Nat) : ℚ) = ((M * k + r : Nat) : ℚ) := by rw [hdm]
    push_cast at h
    rw [h]
    field_simp
    ring
  rw [hq]
  have hkq : (k : ℚ) ≤ 255 := by exact_mod_cast hk
  have hk0 : (0 : ℚ) ≤ (k : ℚ) := by positivity
  -- the rounded quotient lies in `[k, k+1)`
  have hbounds : (k : ℚ) ≤ rnd ((k : ℚ) + (r : ℚ) / (M : ℚ)) ∧
      rnd ((k : ℚ) + (r : ℚ) / (M : ℚ)) < (k : ℚ) + 1 := by
    rcases Nat.eq_zero_or_pos r with hr0 | hrpos
    · subst hr0
      have h := hr.1 (k : ℤ) (by
        rw [abs_of_nonneg (by positivity)]
        have : (k : ℤ) ≤ 255 := by exact_mod_cast hk
        norm_num
        linarith)
      simp only [Nat.cast_zero, zero_div, add_zero]
      have h2 : rnd (k : ℚ) = (k : ℚ) := by exact_mod_cast h
      rw [h2]
      constructor <;> linarith
    · have hr1 : (1 : ℚ) ≤ (r : ℚ) := by exact_mod_cast hrpos
      have hr2 : (r : ℚ) + 1 ≤ (M : ℚ) := by exact_mod_cast hrm
      have hfrac_lo : 1 / (M : ℚ) ≤ (r : ℚ) / (M : ℚ) :=
        div_le_div_of_nonneg_right hr1 hMq.le
      have hfrac_hi : (r : ℚ) / (M : ℚ) ≤ 1 - 1 / (M : ℚ) := by
        rw [le_sub_iff_add_le, ← add_div, div_le_one hMq]
        exact hr2
      have hinv : 1 / (2147483647 : ℚ) ≤ 1 / (M : ℚ) :=
        one_div_le_one_div_of_le hMq hMq2
      generalize hqdef : (k : ℚ) + (r : ℚ) / (M : ℚ) = q
      have hqpos : 0 < q := by
        have : 0 < 1 / (M : ℚ) := by positivity
        linarith
      have hqle : q ≤ 256 := by
        have : 1 / (M : ℚ) > 0 := by positivity
        linarith
      have habs : |q| = q := abs_of_pos hqpos
      have herr := hr.2 q (by
        rw [habs]
        have : (1 : ℚ) / 2 ^ 1022 ≤ 1 / 2147483647 := by
          apply one_div_le_one_div_of_le (by norm_num)
          norm_num
        linarith) (by
        rw [habs]
        have : (256 : ℚ) ≤ 2 ^ 1023 := by norm_num
        linarith)
      rw [habs] at herr
      have herr2 : |rnd q - q| < 1 / 2147483647 := by
        have h52 : (0 : ℚ) < 2 ^ 52 := by positivity
        have h3 : |rnd q - q| ≤ q / 2 ^ 52 := by
          rw [le_div_iff₀ h52]
          exact herr
        have h4 : q / 2 ^ 52 ≤ 256 / 2 ^ 52 := div_le_div_of_nonneg_right hqle h52.le
        have h5 : (256 : ℚ) / 2 ^ 52 < 1 / 2147483647 := by norm_num
        linarith
      have hlt := abs_lt.1 herr2
      constructor <;> linarith [hlt.1, hlt.2]
  unfold toUChar
  have hnn : (0 : ℚ) ≤ rnd ((k : ℚ) + (r : ℚ) / (M : ℚ)) := le_trans hk0 hbounds.1
  rw [if_pos hnn]
  have hfloor : Int.floor (rnd ((k : ℚ) + (r : ℚ) / (M : ℚ))) = (k : ℤ) := by
    rw [Int.floor_eq_iff]
    exact ⟨by exact_mod_cast hbounds.1, by exact_mod_cast hbounds.2⟩
  rw [hfloor]
  simp only [Int.toNat_ofNat]
  omega

/-! ## The runs of `main` -/

theorem bytes_eq {c : Config} (hc : c.fits) : bytes c = c.WIDTH * c.HEIGHT * 4 := by
  have h := hc.2.2
  unfold bytes u64 u32
  omega

theorem malloc_length (heap : Nat → Nat) (n : Nat) : (malloc heap n).length = n := by
  simp [malloc]

theorem pixels_pos {c : Config} (hc : c.fits) : 0 < c.WIDTH * c.HEIGHT :=
  Nat.mul_pos hc.1 hc.2.1

theorem warmup_ok (image : List Nat) (h : 2 ≤ image.length) :
    task4.warmup image = .ok ((image.set 0 0).set 1 0) := by
  have h0 : 0 < image.length := by omega
  have h1 : 1 < (image.set 0 0).length := by rw [List.length_set]; omega
  simp only [task4.warmup, storeAll, store, if_pos h0, if_pos h1]

/-- The block loop on a buffer of at least `WIDTH*HEIGHT` cells. -/
theorem render_ok (rnd : ℚ → ℚ) {c : Config} {num_blocks : Int} (image : List Nat)
    (hc : c.fits) (h1 : 1 ≤ num_blocks) (h2 : num_blocks < 2147483648)
    (hlen : c.WIDTH * c.HEIGHT ≤ image.length) :
    ∃ r, render rnd c num_blocks image = .ok r ∧ r.length = image.length ∧
      (∀ y x : Nat, y < num_blocks.toNat * (c.HEIGHT / num_blocks.toNat) → x < c.WIDTH →
        r[y * c.WIDTH + x]? = some (mandelbrot rnd c (x : Int) (y : Int))) ∧
      (∀ j, num_blocks.toNat * (c.HEIGHT / num_blocks.toNat) * c.WIDTH ≤ j →
        r[j]? = image[j]?) := by
  unfold render
  rw [renderWrites_eq hc h1 h2]
  exact storeAll_computeWrites rnd image hc (Nat.mul_div_le _ _) hlen

theorem rows_eq_height {c : Config} {num_blocks : Int} (h1 : 1 ≤ num_blocks)
    (hdiv : num_blocks ∣ (c.HEIGHT : Int)) :
    num_blocks.toNat * (c.HEIGHT / num_blocks.toNat) = c.HEIGHT := by
  apply Nat.mul_div_cancel'
  have h : ((num_blocks.toNat : Nat) : Int) ∣ (c.HEIGHT : Int) := by
    rw [Int.toNat_of_nonneg (by omega)]
    exact hdiv
  exact Int.natCast_dvd_natCast.1 h

/-- A run of `original`: it ends normally and every cell of the image holds
its pixel. -/
theorem original_main_ok (rnd : ℚ → ℚ) {c : Config} (heap : Nat → Nat) (hc : c.fits) :
    ∃ image2,
      original.main rnd c heap = .ok ⟨image2, pgmFile c image2⟩ ∧
      image2.length = bytes c ∧
      (∀ y x : Nat, y < c.HEIGHT → x < c.WIDTH →
        image2[y * c.WIDTH + x]? = some (mandelbrot rnd c (x : Int) (y : Int))) := by
  have hb := bytes_eq hc
  have hp := pixels_pos hc
  have hl0 : (malloc heap (bytes c)).length = bytes c := malloc_length _ _
  have h0 : 0 < (malloc heap (bytes c)).length := by omega
  have hl1 : ((malloc heap (bytes c)).set 0 0).length = bytes c := by
    rw [List.length_set, hl0]
  obtain ⟨r, hr, hlr, hcells, _⟩ := storeAll_computeWrites rnd (n := c.HEIGHT)
    ((malloc heap (bytes c)).set 0 0) hc (le_refl _) (by omega)
  refine ⟨r, ?_, by rw [hlr, hl1], hcells⟩
  simp only [original.main, store, if_pos h0, hr]

theorem takeQueue_nil (q : Nat) : takeQueue q [] = none := rfl

theorem serve_nil (picks : List Nat) : serve picks [] = [] := by
  induction picks with
  | nil => rfl
  | cons q picks ih => simp only [serve, takeQueue_nil, ih]

/-- A run of `task4` with a negative block count, whatever the device memory
holds and however the queues are served: the block loop issues nothing and
stores nothing, and the run ends normally with the buffer of the warm-up
region. -/
theorem task4_main_neg (rnd : ℚ → ℚ) (c : Config) (num_blocks : Int)
    (heap devHeap : Nat → Nat) (picks : List Nat)
    (hc : c.fits) (h1 : num_blocks < 0) (h2 : -2147483648 ≤ num_blocks) :
    task4.issued c num_blocks = [] ∧ renderWrites rnd c num_blocks = [] ∧
    ∃ image1,
      task4.warmup (malloc heap (bytes c)) = .ok image1 ∧
      task4.main rnd c (some num_blocks) heap devHeap picks
        = .ok ⟨image1, pgmFile c image1⟩ := by
  have hb := bytes_eq hc
  have hp := pixels_pos hc
  have hl0 : (malloc heap (bytes c)).length = bytes c := malloc_length _ _
  have hw := warmup_ok (malloc heap (bytes c)) (by omega)
  have hbl : blocks num_blocks = [] := by
    unfold blocks
    have : num_blocks.toNat = 0 := by omega
    rw [this]
    rfl
  have hrw : renderWrites rnd c num_blocks = [] := by
    unfold renderWrites
    rw [hbl]
    rfl
  have hiss : task4.issued c num_blocks = [] := by
    unfold task4.issued
    rw [hbl]
    rfl
  have hnz : toU32 num_blocks ≠ 0 := by
    unfold toU32
    omega
  refine ⟨hiss, hrw, _, hw, ?_⟩
  simp only [task4.main, hw, hiss, serve_nil, execAll, if_neg hnz]

/-! ## Rows and slices of one block -/

theorem toNat_div_cast (H : Nat) {num_blocks : Int} (h1 : 1 ≤ num_blocks) :
    ((H / num_blocks.toNat : Nat) : Int) = (H : Int) / num_blocks := by
  rw [Int.natCast_div, Int.toNat_of_nonneg (by omega)]

theorem mem_block_rows {c : Config} {num_blocks : Int} {block : Nat} (hc : c.fits)
    (h1 : 1 ≤ num_blocks) (h2 : num_blocks < 2147483648) (hb : block < num_blocks.toNat)
    (y : Int) :
    y ∈ forInt (start c num_blocks block) (end_ c num_blocks block) ↔
      ((block * (c.HEIGHT / num_blocks.toNat) : Nat) : Int) ≤ y ∧
      y < ((block * (c.HEIGHT / num_blocks.toNat) + c.HEIGHT / num_blocks.toNat : Nat) : Int) := by
  rw [mem_forInt, start_eq hc h1 h2 hb, end_eq hc h1 h2 hb]

theorem block_unique {q b1 b2 y : Nat} (h1 : b1 * q ≤ y) (h2 : y < b1 * q + q)
    (h3 : b2 * q ≤ y) (h4 : y < b2 * q + q) : b1 = b2 := by
  have e1 : y / q = b1 := Nat.div_eq_of_lt_le h1 (by rw [Nat.succ_mul]; exact h2)
  have e2 : y / q = b2 := Nat.div_eq_of_lt_le h3 (by rw [Nat.succ_mul]; exact h4)
  omega

/-- Two blocks that visit a common row are the same block. -/
theorem block_rows_disjoint {c : Config} {num_blocks : Int} {b1 b2 : Nat} (hc : c.fits)
    (h1 : 1 ≤ num_blocks) (h2 : num_blocks < 2147483648)
    (hb1 : b1 ∈ blocks num_blocks) (hb2 : b2 ∈ blocks num_blocks) (y : Int)
    (hy1 : y ∈ forInt (start c num_blocks b1) (end_ c num_blocks b1))
    (hy2 : y ∈ forInt (start c num_blocks b2) (end_ c num_blocks b2)) : b1 = b2 := by
  have hb1 : b1 < num_blocks.toNat := by simpa [blocks] using hb1
  have hb2 : b2 < num_blocks.toNat := by simpa [blocks] using hb2
  obtain ⟨a1, a2⟩ := (mem_block_rows hc h1 h2 hb1 y).1 hy1
  obtain ⟨a3, a4⟩ := (mem_block_rows hc h1 h2 hb2 y).1 hy2
  apply block_unique (q := c.HEIGHT / num_blocks.toNat) (y := y.toNat) <;> omega

theorem mem_blockWrites (rnd : ℚ → ℚ) {c : Config} {num_blocks : Int} {block : Nat}
    (hc : c.fits) (h1 : 1 ≤ num_blocks) (h2 : num_blocks < 2147483648)
    (hb : block < num_blocks.toNat) (w : Nat × Nat) :
    w ∈ blockWrites rnd c num_blocks block ↔
      ∃ k x : Nat, k < c.HEIGHT / num_blocks.toNat ∧ x < c.WIDTH ∧
        w = ((block * (c.HEIGHT / num_blocks.toNat) + k) * c.WIDTH + x,
              mandelbrot rnd c (x : Int)
                ((block * (c.HEIGHT / num_blocks.toNat) + k : Nat) : Int)) := by
  have hle := block_rows_le (H := c.HEIGHT) hb
  unfold blockWrites computeWrites rowWrites
  rw [block_forInt hc h1 h2 hb]
  simp only [List.mem_flatMap, List.mem_map, List.mem_range]
  constructor
  · rintro ⟨_, ⟨k, hk, rfl⟩, x, hx, rfl⟩
    exact ⟨k, x, hk, hx, by rw [flatIndex_natCast hc hx (by omega)]⟩
  · rintro ⟨k, x, hk, hx, rfl⟩
    exact ⟨_, ⟨k, hk, rfl⟩, x, hx, by rw [flatIndex_natCast hc hx (by omega)]⟩

/-- The subscripts stored to by one block are those of the range
`[block*(q*WIDTH), block*(q*WIDTH) + q*WIDTH)`, with `q = HEIGHT/num_blocks`. -/
theorem blockWrites_indices {rnd : ℚ → ℚ} {c : Config} {num_blocks : Int} {block : Nat}
    (hc : c.fits) (h1 : 1 ≤ num_blocks) (h2 : num_blocks < 2147483648)
    (hb : block < num_blocks.toNat) (j : Nat) :
    j ∈ (blockWrites rnd c num_blocks block).map Prod.fst ↔
      block * (c.HEIGHT / num_blocks.toNat * c.WIDTH) ≤ j ∧
      j < block * (c.HEIGHT / num_blocks.toNat * c.WIDTH)
            + c.HEIGHT / num_blocks.toNat * c.WIDTH := by
  have hW := hc.1
  generalize hq : c.HEIGHT / num_blocks.toNat = q
  have hmem := mem_blockWrites rnd hc h1 h2 hb
  rw [hq] at hmem
  have e1 : block * (q * c.WIDTH) = block * q * c.WIDTH := by ring
  have e2 : block * q * c.WIDTH + q * c.WIDTH = (block * q + q) * c.WIDTH := by ring
  rw [e1, e2]
  constructor
  · intro hin
    obtain ⟨w, hw, rfl⟩ := List.mem_map.1 hin
    obtain ⟨k, x, hk, hx, rfl⟩ := (hmem w).1 hw
    have a1 : block * q * c.WIDTH ≤ (block * q + k) * c.WIDTH :=
      Nat.mul_le_mul_right _ (by omega)
    have a2 : (block * q + k + 1) * c.WIDTH ≤ (block * q + q) * c.WIDTH :=
      Nat.mul_le_mul_right _ (by omega)
    have a3 : (block * q + k + 1) * c.WIDTH = (block * q + k) * c.WIDTH + c.WIDTH := by ring
    simp only
    omega
  · rintro ⟨hlo, hhi⟩
    have a1 : block * q ≤ j / c.WIDTH := (Nat.le_div_iff_mul_le hW).2 hlo
    have a2 : j / c.WIDTH < block * q + q := (Nat.div_lt_iff_lt_mul hW).2 hhi
    have a3 : j / c.WIDTH * c.WIDTH + j % c.WIDTH = j := Nat.div_add_mod' j c.WIDTH
    refine List.mem_map.2 ⟨_, (hmem _).2 ⟨j / c.WIDTH - block * q, j % c.WIDTH, by omega,
      Nat.mod_lt _ hW, rfl⟩, ?_⟩
    have a4 : block * q + (j / c.WIDTH - block * q) = j / c.WIDTH := by omega
    simp only [a4, a3]

/-! ## Block partition -/

/-- C1 (disjoint cover).  For a block count `num_blocks ≥ 1` that divides
`HEIGHT`, the block loop computes for block `b` the row range
`[b*(HEIGHT/num_blocks), b*(HEIGHT/num_blocks) + HEIGHT/num_blocks)`; every row
`y` with `0 ≤ y < HEIGHT` is visited by exactly one block, and no block visits
a row outside `[0, HEIGHT)`. -/
theorem block_rows_disjoint_cover (c : Config) (num_blocks : Int) (hc : c.fits)
    (h1 : 1 ≤ num_blocks) (h2 : num_blocks < 2147483648)
    (hdiv : num_blocks ∣ (c.HEIGHT : Int)) :
    (∀ b ∈ blocks num_blocks,
      start c num_blocks b = (b : Int) * ((c.HEIGHT : Int) / num_blocks) ∧
      end_ c num_blocks b
        = (b : Int) * ((c.HEIGHT : Int) / num_blocks) + (c.HEIGHT : Int) / num_blocks) ∧
    (∀ y : Int, 0 ≤ y → y < (c.HEIGHT : Int) →
      ∃! b, b ∈ blocks num_blocks ∧
        y ∈ forInt (start c num_blocks b) (end_ c num_blocks b)) ∧
    (∀ b ∈ blocks num_blocks,
      ∀ y ∈ forInt (start c num_blocks b) (end_ c num_blocks b),
        0 ≤ y ∧ y < (c.HEIGHT : Int)) := by
  have hcov := rows_eq_height h1 hdiv
  have hH := hc.2.1
  refine ⟨?_, ?_, ?_⟩
  · intro b hb
    have hb : b < num_blocks.toNat := by simpa [blocks] using hb
    rw [start_eq hc h1 h2 hb, end_eq hc h1 h2 hb, ← toNat_div_cast c.HEIGHT h1]
    push_cast
    exact ⟨rfl, rfl⟩
  · intro y hy0 hyH
    have hq : 0 < c.HEIGHT / num_blocks.toNat := by
      rcases Nat.eq_zero_or_pos (c.HEIGHT / num_blocks.toNat) with h0 | hpos
      · rw [h0] at hcov
        omega
      · exact hpos
    have hyn : y.toNat < num_blocks.toNat * (c.HEIGHT / num_blocks.toNat) := by omega
    have hb : y.toNat / (c.HEIGHT / num_blocks.toNat) < num_blocks.toNat :=
      (Nat.div_lt_iff_lt_mul hq).2 hyn
    have a1 := Nat.div_mul_le_self y.toNat (c.HEIGHT / num_blocks.toNat)
    have a2 := Nat.lt_div_mul_add (a := y.toNat) hq
    refine ⟨y.toNat / (c.HEIGHT / num_blocks.toNat), ⟨?_, ?_⟩, ?_⟩
    · simpa [blocks] using hb
    · rw [mem_block_rows hc h1 h2 hb]
      constructor <;> omega
    · rintro b ⟨hb2, hy2⟩
      exact block_rows_disjoint hc h1 h2 hb2 (by simpa [blocks] using hb) y hy2
        (by rw [mem_block_rows hc h1 h2 hb]; constructor <;> omega)
  · intro b hb y hy
    have hb : b < num_blocks.toNat := by simpa [blocks] using hb
    obtain ⟨a1, a2⟩ := (mem_block_rows hc h1 h2 hb y).1 hy
    have hle := block_rows_le (H := c.HEIGHT) hb
    constructor <;> omega

/-- C1 at `constants` with the default block count 16: row 5000 is visited by
exactly one block. -/
theorem block_rows_disjoint_cover_witness :
    constants.fits ∧ (16 : Int) ∣ (constants.HEIGHT : Int) ∧
    ∃! b, b ∈ blocks 16 ∧ (5000 : Int) ∈ forInt (start constants 16 b) (end_ constants 16 b) :=
  ⟨by decide, by decide,
    (block_rows_disjoint_cover constants 16 (by decide) (by decide) (by decide)
      (by decide)).2.1 5000 (by decide) (by decide)⟩

theorem covered_cast (H : Nat) {num_blocks : Int} (h1 : 1 ≤ num_blocks) :
    ((num_blocks.toNat * (H / num_blocks.toNat) : Nat) : Int)
      = num_blocks * ((H : Int) / num_blocks) := by
  push_cast
  rw [Int.toNat_of_nonneg (by omega)]

theorem forInt_zero_nodup (n : Nat) : (forInt 0 (n : Int)).Nodup := by
  rw [forInt_zero]
  exact List.Nodup.map Nat.cast_injective (List.nodup_range n)

/-- C6 (remainder policy).  For a block count `num_blocks ≥ 1` that does not
divide `HEIGHT`: the ranges are contiguous from row 0 (the first starts at 0,
each next one starts where the previous one ends); two blocks never share a
row; the rows visited by the whole loop are exactly the rows
`0 .. num_blocks*(HEIGHT/num_blocks)`, each once; that bound is below `HEIGHT`;
and the remaining rows are stored to by no block, so the loop leaves their
cells as they were. -/
theorem remainder_rows_dropped (rnd : ℚ → ℚ) (c : Config) (num_blocks : Int)
    (image : List Nat) (hc : c.fits) (h1 : 1 ≤ num_blocks) (h2 : num_blocks < 2147483648)
    (hnd : ¬ num_blocks ∣ (c.HEIGHT : Int)) (hlen : c.WIDTH * c.HEIGHT ≤ image.length) :
    start c num_blocks 0 = 0 ∧
    (∀ b, b + 1 ∈ blocks num_blocks → start c num_blocks (b + 1) = end_ c num_blocks b) ∧
    (∀ b1 ∈ blocks num_blocks, ∀ b2 ∈ blocks num_blocks, ∀ y : Int,
      y ∈ forInt (start c num_blocks b1) (end_ c num_blocks b1) →
      y ∈ forInt (start c num_blocks b2) (end_ c num_blocks b2) → b1 = b2) ∧
    (blocks num_blocks).flatMap
        (fun (b : Nat) => forInt (start c num_blocks b) (end_ c num_blocks b))
      = forInt 0 (num_blocks * ((c.HEIGHT : Int) / num_blocks)) ∧
    ((blocks num_blocks).flatMap
        (fun (b : Nat) => forInt (start c num_blocks b) (end_ c num_blocks b))).Nodup ∧
    num_blocks * ((c.HEIGHT : Int) / num_blocks) < (c.HEIGHT : Int) ∧
    (∀ w ∈ renderWrites rnd c num_blocks,
      (w.1 : Int) < num_blocks * ((c.HEIGHT : Int) / num_blocks) * (c.WIDTH : Int)) ∧
    ∃ r, render rnd c num_blocks image = .ok r ∧
      ∀ j : Nat, num_blocks * ((c.HEIGHT : Int) / num_blocks) * (c.WIDTH : Int) ≤ (j : Int) →
        r[j]? = image[j]? := by
  have hB : 0 < num_blocks.toNat := by omega
  have hcc := covered_cast c.HEIGHT h1
  have hrows := rows_of_blocks hc h1 h2
  refine ⟨?_, ?_, ?_, ?_, ?_, ?_, ?_, ?_⟩
  · rw [start_eq hc h1 h2 hB]
    simp
  · intro b hb
    have hb1 : b + 1 < num_blocks.toNat := by simpa [blocks] using hb
    rw [start_eq hc h1 h2 hb1, end_eq hc h1 h2 (by omega), Nat.succ_mul]
  · intro b1 hb1 b2 hb2 y hy1 hy2
    exact block_rows_disjoint hc h1 h2 hb1 hb2 y hy1 hy2
  · rw [hrows, hcc]
  · rw [hrows]
    exact forInt_zero_nodup _
  · rw [← hcc]
    have hle : num_blocks.toNat * (c.HEIGHT / num_blocks.toNat) ≤ c.HEIGHT :=
      Nat.mul_div_le _ _
    have hne : num_blocks.toNat * (c.HEIGHT / num_blocks.toNat) ≠ c.HEIGHT := by
      intro he
      apply hnd
      have hd : ((num_blocks.toNat : Nat) : Int) ∣ (c.HEIGHT : Int) :=
        Int.natCast_dvd_natCast.2 ⟨_, he.symm⟩
      rw [Int.toNat_of_nonneg (by omega)] at hd
      exact hd
    omega
  · intro w hw
    rw [renderWrites_eq hc h1 h2] at hw
    obtain ⟨y, x, hy, hx, rfl⟩ := (mem_computeWrites rnd hc (Nat.mul_div_le _ _) w).1 hw
    have hlt := flat_lt (H := num_blocks.toNat * (c.HEIGHT / num_blocks.toNat)) hx hy
    rw [← hcc]
    have e : c.WIDTH * (num_blocks.toNat * (c.HEIGHT / num_blocks.toNat))
        = num_blocks.toNat * (c.HEIGHT / num_blocks.toNat) * c.WIDTH := Nat.mul_comm _ _
    rw [e] at hlt
    exact_mod_cast hlt
  · obtain ⟨r, hr, _, _, hrest⟩ := render_ok rnd image hc h1 h2 hlen
    refine ⟨r, hr, ?_⟩
    intro j hj
    apply hrest
    rw [← hcc] at hj
    exact_mod_cast hj

/-- C6 at `constants` with three blocks, each of 5461 rows: the last row,
16383, is left out. -/
theorem remainder_rows_dropped_witness :
    constants.fits ∧ ¬ (3 : Int) ∣ (constants.HEIGHT : Int) ∧
    (3 : Int) * ((constants.HEIGHT : Int) / 3) = 16383 ∧
    (blocks 3).flatMap (fun (b : Nat) => forInt (start constants 3 b) (end_ constants 3 b))
      = forInt 0 (3 * ((constants.HEIGHT : Int) / 3)) :=
  ⟨by decide, by decide, by decide,
    (remainder_rows_dropped binary64 constants 3 (malloc (fun _ => 0) (bytes constants))
      (by decide) (by decide) (by decide) (by decide)
      (by rw [malloc_length]; decide)).2.2.2.1⟩

/-! ## Non-positive block counts -/

/-- Without an argument `task4` runs with 16 blocks. -/
theorem task4_main_default (rnd : ℚ → ℚ) (c : Config) (heap devHeap : Nat → Nat)
    (picks : List Nat) :
    task4.main rnd c none heap devHeap picks
      = task4.main rnd c (some 16) heap devHeap picks := rfl

/-- With `num_blocks = 0` the division `HEIGHT/num_blocks` that computes
`block_size` is a division by zero; no block has been issued by then. -/
theorem task4_main_zero (rnd : ℚ → ℚ) (c : Config) (heap devHeap : Nat → Nat)
    (picks : List Nat) (hc : c.fits) :
    task4.main rnd c (some 0) heap devHeap picks = .error .divideByZero := by
  have hb := bytes_eq hc
  have hp := pixels_pos hc
  have hl0 : (malloc heap (bytes c)).length = bytes c := malloc_length _ _
  have hw := warmup_ok (malloc heap (bytes c)) (by omega)
  have hz : toU32 0 = 0 := rfl
  simp only [task4.main, hw, hz, if_true]

/-- C3, as the code behaves.  For a negative block count the run is not
rejected: the block loop issues no operation and performs no store (the kernel
is not invoked), and the run ends normally, its buffer being the one the
warm-up region left and its file the serialisation of that buffer.  This holds
whatever the device memory holds and however the queues are served. -/
theorem negative_block_count_not_rejected (rnd : ℚ → ℚ) (c : Config)
    (heap devHeap : Nat → Nat) (picks : List Nat)
    (num_blocks : Int) (hc : c.fits) (h1 : num_blocks < 0)
    (h2 : -2147483648 ≤ num_blocks) :
    task4.issued c num_blocks = [] ∧ renderWrites rnd c num_blocks = [] ∧
    ∃ image1,
      task4.warmup (malloc heap (bytes c)) = .ok image1 ∧
      task4.main rnd c (some num_blocks) heap devHeap picks
        = .ok ⟨image1, pgmFile c image1⟩ :=
  task4_main_neg rnd c num_blocks heap devHeap picks hc h1 h2

/-- C3, as the code behaves, at `constants` and `num_blocks = -1`. -/
theorem negative_block_count_not_rejected_witness :
    constants.fits ∧ task4.issued constants (-1) = [] ∧
    renderWrites binary64 constants (-1) = [] :=
  ⟨by decide,
    (negative_block_count_not_rejected binary64 constants (fun _ => 0) (fun _ => 0) []
      (-1) (by decide) (by decide) (by decide)).1,
    (negative_block_count_not_rejected binary64 constants (fun _ => 0) (fun _ => 0) []
      (-1) (by decide) (by decide) (by decide)).2.1⟩

/-- C3 fails as stated: with `num_blocks = -1` the run of `task4` is not
rejected, it ends normally. -/
theorem negative_block_count_accepted :
    ∃ r : Run,
      task4.main binary64 constants (some (-1)) (fun _ => 0) (fun _ => 0) [] = .ok r :=
  match task4_main_neg binary64 constants (-1) (fun _ => 0) (fun _ => 0) []
    (by decide) (by decide) (by decide) with
  | ⟨_, _, image1, _, e⟩ => ⟨⟨image1, pgmFile constants image1⟩, e⟩

/-! ## The pixel kernel -/

/-! ### The rounding `binary64` -/

theorem roundEven_intCast (z : ℤ) : roundEven (z : ℚ) = z := by
  unfold roundEven
  rw [Int.floor_intCast]
  simp

theorem roundEven_near (x : ℚ) : |(roundEven x : ℚ) - x| ≤ 1 / 2 := by
  have h1 := Int.floor_le x
  have h2 := Int.lt_floor_add_one x
  unfold roundEven
  split_ifs with a b d
  · rw [abs_le]; constructor <;> linarith
  · push_cast; rw [abs_le]; constructor <;> linarith
  · rw [abs_le]; constructor <;> linarith
  · push_cast; rw [abs_le]; constructor <;> linarith

theorem binary64_intCast (n : ℤ) (hn : |n| ≤ 2 ^ 53) : binary64 (n : ℚ) = (n : ℚ) := by
  rcases eq_or_ne n 0 with rfl | hne
  · unfold binary64
    simp [roundEven_intCast 0, roundEven]
  · have hpos : (0 : ℚ) < |(n : ℚ)| := abs_pos.2 (by exact_mod_cast hne)
    have h1 : (1 : ℚ) ≤ |(n : ℚ)| := by
      have : (1 : ℤ) ≤ |n| := Int.one_le_abs hne
      exact_mod_cast this
    have hq53 : |(n : ℚ)| ≤ 2 ^ 53 := by exact_mod_cast hn
    have hlog0 : (0 : ℤ) ≤ Int.log 2 |(n : ℚ)| := by
      rw [← Int.zpow_le_iff_le_log (by norm_num) hpos]
      simpa using h1
    have hlog53 : Int.log 2 |(n : ℚ)| ≤ 53 := by
      have h := Int.zpow_log_le_self (b := 2) (by norm_num) hpos
      have h2 : ((2 : ℕ) : ℚ) ^ Int.log 2 |(n : ℚ)| ≤ ((2 : ℕ) : ℚ) ^ (53 : ℤ) := by
        refine le_trans h ?_
        norm_num
        exact hq53
      exact (zpow_le_zpow_iff_right₀ (by norm_num)).1 h2
    unfold binary64
    rw [max_eq_left (by omega)]
    have hle := Int.zpow_log_le_self (b := 2) (by norm_num) hpos
    generalize hE : Int.log 2 |(n : ℚ)| = e at *
    lift e to ℕ using hlog0
    have he53 : e ≤ 53 := by omega
    have hulp : (2 : ℚ) ^ ((e : ℤ) - 52) = 2 ^ e / 2 ^ 52 := by
      rw [zpow_sub₀ (by norm_num), zpow_natCast]
      norm_num
    rw [hulp]
    have h2e : (0 : ℚ) < 2 ^ e := by positivity
    rcases Nat.lt_or_ge 52 e with hbig | hsmall
    · have e53 : e = 53 := by omega
      subst e53
      have habs : |n| = 2 ^ 53 := by
        apply le_antisymm hn
        have : ((2 : ℕ) : ℚ) ^ ((53 : ℕ) : ℤ) ≤ |(n : ℚ)| := hle
        rw [zpow_natCast] at this
        exact_mod_cast this
      have hx : ∃ z : ℤ, n = 2 * z := by
        rcases abs_eq (by norm_num : (0 : ℤ) ≤ 2 ^ 53) |>.1 habs with h | h
        · exact ⟨2 ^ 52, by rw [h]; norm_num⟩
        · exact ⟨-2 ^ 52, by rw [h]; norm_num⟩
      obtain ⟨z, rfl⟩ := hx
      have e1 : ((2 * z : ℤ) : ℚ) / (2 ^ 53 / 2 ^ 52) = ((z : ℤ) : ℚ) := by
        push_cast
        norm_num
      rw [e1, roundEven_intCast]
      push_cast
      norm_num
      ring
    · obtain ⟨k, hk⟩ : ∃ k, 52 = e + k := ⟨52 - e, by omega⟩
      have h52 : (2 : ℚ) ^ 52 = 2 ^ e * 2 ^ k := by rw [← pow_add, ← hk]
      have e1 : (n : ℚ) / (2 ^ e / 2 ^ 52) = ((n * 2 ^ k : ℤ) : ℚ) := by
        rw [h52]
        push_cast
        field_simp
        ring
      rw [e1, roundEven_intCast, h52]
      push_cast
      field_simp
      ring

/-- The rounding `binary64` is a rounding in the sense of `IsRounding`. -/
theorem binary64_isRounding : IsRounding binary64 := by
  refine ⟨binary64_intCast, ?_⟩
  intro q hlo _
  have h1022 : (0 : ℚ) < 1 / 2 ^ 1022 := by positivity
  have hpos : (0 : ℚ) < |q| := lt_of_lt_of_le h1022 hlo
  have hlog : (-1022 : ℤ) ≤ Int.log 2 |q| := by
    rw [← Int.zpow_le_iff_le_log (by norm_num) hpos]
    refine le_trans (le_of_eq ?_) hlo
    rw [zpow_neg, one_div]
    norm_num
  have hle := Int.zpow_log_le_self (b := 2) (by norm_num) hpos
  unfold binary64
  rw [max_eq_left hlog]
  generalize Int.log 2 |q| = e at *
  have hu : (0 : ℚ) < 2 ^ (e - 52) := by positivity
  have hnear := roundEven_near (q / 2 ^ (e - 52))
  have e1 : (roundEven (q / 2 ^ (e - 52)) : ℚ) * 2 ^ (e - 52) - q
      = ((roundEven (q / 2 ^ (e - 52)) : ℚ) - q / 2 ^ (e - 52)) * 2 ^ (e - 52) := by
    field_simp
  rw [e1, abs_mul, abs_of_pos hu]
  have e2 : (2 : ℚ) ^ (e - 52) * 2 ^ 52 = 2 ^ e := by
    rw [zpow_sub₀ (by norm_num)]
    have : (2 : ℚ) ^ (52 : ℤ) = 2 ^ 52 := by norm_num
    rw [this]
    field_simp
  have hle2 : (2 : ℚ) ^ e ≤ |q| := by simpa using hle
  have h2e : (0 : ℚ) < 2 ^ e := by positivity
  calc |(roundEven (q / 2 ^ (e - 52)) : ℚ) - q / 2 ^ (e - 52)| * 2 ^ (e - 52) * 2 ^ 52
      = |(roundEven (q / 2 ^ (e - 52)) : ℚ) - q / 2 ^ (e - 52)| * 2 ^ e := by
        rw [mul_assoc, e2]
    _ ≤ 1 / 2 * 2 ^ e := mul_le_mul_of_nonneg_right hnear h2e.le
    _ ≤ 2 ^ e := by linarith
    _ ≤ |q| := hle2

/-- C4 (the kernel's result).  For every pixel the loop of `mandelbrot` ends
with a count `i ≤ MAX_ITERS`, the returned 8-bit value is the exact quotient
`MAX_COLOR * i / MAX_ITERS` rounded down, with no wrap-around in the
conversion, and it is at most `MAX_COLOR`.  This needs `0 < MAX_ITERS` and
`MAX_COLOR ≤ 255`, as in `constants.h`. -/
theorem mandelbrot_exact (rnd : ℚ → ℚ) (c : Config) (Px Py : Int) (hr : IsRounding rnd)
    (hM0 : 0 < c.MAX_ITERS) (hM : c.MAX_ITERS < 2147483648) (hC : c.MAX_COLOR ≤ 255) :
    iterations rnd c Px Py ≤ c.MAX_ITERS ∧
    mandelbrot rnd c Px Py = c.MAX_COLOR * iterations rnd c Px Py / c.MAX_ITERS ∧
    mandelbrot rnd c Px Py ≤ c.MAX_COLOR := by
  have hi := iterations_le rnd c Px Py
  have he : mandelbrot rnd c Px Py = c.MAX_COLOR * iterations rnd c Px Py / c.MAX_ITERS := by
    unfold mandelbrot
    exact toUChar_scaled hr hC hM0 hM hi
  refine ⟨hi, he, ?_⟩
  rw [he]
  calc c.MAX_COLOR * iterations rnd c Px Py / c.MAX_ITERS
      ≤ c.MAX_COLOR * c.MAX_ITERS / c.MAX_ITERS :=
        Nat.div_le_div_right (Nat.mul_le_mul_left _ hi)
    _ = c.MAX_COLOR := Nat.mul_div_cancel _ hM0

/-- C4 at `constants` with `binary64` arithmetic, at the two corners `(0,0)`
and `(WIDTH-1, HEIGHT-1)` of the image. -/
theorem mandelbrot_exact_witness :
    IsRounding binary64 ∧
    (iterations binary64 constants 0 0 ≤ constants.MAX_ITERS ∧
      mandelbrot binary64 constants 0 0
        = constants.MAX_COLOR * iterations binary64 constants 0 0 / constants.MAX_ITERS ∧
      mandelbrot binary64 constants 0 0 ≤ constants.MAX_COLOR) ∧
    (iterations binary64 constants 16383 16383 ≤ constants.MAX_ITERS ∧
      mandelbrot binary64 constants 16383 16383
        = constants.MAX_COLOR * iterations binary64 constants 16383 16383
            / constants.MAX_ITERS ∧
      mandelbrot binary64 constants 16383 16383 ≤ constants.MAX_COLOR) :=
  ⟨binary64_isRounding,
    mandelbrot_exact binary64 constants 0 0 binary64_isRounding (by decide) (by decide)
      (by decide),
    mandelbrot_exact binary64 constants 16383 16383 binary64_isRounding (by decide)
      (by decide) (by decide)⟩

/-! ## Queues and slices -/

/-- C5, at the failing input.  In `task4` with the default 16 blocks, block 2
has its compute loop issued on queue 2 and its transfer on queue 0. -/
theorem task4_block2_queues :
    (task4.blockOps constants 16 2).map Op.queue = [2, 0] := by
  decide

/-- The three operations of a block of `task5` are issued on one queue, the
block's own index. -/
theorem task5_same_queue (c : Config) (num_blocks : Int) (block : Nat) :
    (task5.blockOps c num_blocks block).map Op.queue = [block, block, block] := rfl

/-- C9 (the transfer slice is the compute slice).  For `num_blocks ≥ 1` and a
block `b` of the loop, the transfer step of `b`, in `task4` and in `task5`, is
`update self(image[b*block_size : block_size])` with
`block_size = (HEIGHT/num_blocks)*WIDTH`, and a flat subscript is stored to by
the compute loop of `b` exactly when it lies in
`[b*block_size, b*block_size + block_size)`. -/
theorem transfer_slice_is_compute_slice (rnd : ℚ → ℚ) (c : Config) (num_blocks : Int)
    (b : Nat) (hc : c.fits) (h1 : 1 ≤ num_blocks) (h2 : num_blocks < 2147483648)
    (hb : b ∈ blocks num_blocks) :
    block_size c num_blocks = (c.HEIGHT : Int) / num_blocks * (c.WIDTH : Int) ∧
    Op.updateSelf (b % 2) ((b : Int) * block_size c num_blocks) (block_size c num_blocks)
      ∈ task4.blockOps c num_blocks b ∧
    Op.updateSelf b ((b : Int) * block_size c num_blocks) (block_size c num_blocks)
      ∈ task5.blockOps c num_blocks b ∧
    ∀ j : Nat, j ∈ (blockWrites rnd c num_blocks b).map Prod.fst ↔
      (b : Int) * block_size c num_blocks ≤ (j : Int) ∧
      (j : Int) < (b : Int) * block_size c num_blocks + block_size c num_blocks := by
  have hb : b < num_blocks.toNat := by simpa [blocks] using hb
  have hbs := block_size_eq hc h1 h2
  refine ⟨?_, ?_, ?_, ?_⟩
  · rw [hbs, ← toNat_div_cast c.HEIGHT h1]
    push_cast
    rfl
  · simp [task4.blockOps]
  · simp [task5.blockOps]
  · intro j
    rw [blockWrites_indices hc h1 h2 hb, hbs]
    generalize c.HEIGHT / num_blocks.toNat * c.WIDTH = s
    generalize hp : b * s = p
    have e : (b : Int) * (s : Int) = (p : Int) := by rw [← hp]; push_cast; rfl
    rw [e]
    omega

/-- C9 at `constants` with 16 blocks: block 3 stores to the subscript
`3 * 16777216`, the first cell of its transfer slice. -/
theorem transfer_slice_is_compute_slice_witness :
    constants.fits ∧ 3 ∈ blocks 16 ∧
    50331648 ∈ (blockWrites binary64 constants 16 3).map Prod.fst :=
  ⟨by decide, by decide,
    ((transfer_slice_is_compute_slice binary64 constants 16 3 (by decide) (by decide)
      (by decide) (by decide)).2.2.2 50331648).2 (by decide)⟩

/-- C10 (index safety of the block loop).  For `num_blocks ≥ 1`: `block_size`
is computed without wrap-around and fits an `int`; for every block `b` the
bounds `start` and `end` and the transfer offset `b*block_size` are exact and
the transfer slice ends within the `WIDTH*HEIGHT` cells; every subscript
`y*WIDTH+x` of the compute loop is computed without wrap-around and is below
`WIDTH*HEIGHT`; so the loop runs without a store outside the buffer. -/
theorem block_loop_index_safe (rnd : ℚ → ℚ) (c : Config) (num_blocks : Int)
    (image : List Nat) (hc : c.fits) (h1 : 1 ≤ num_blocks) (h2 : num_blocks < 2147483648)
    (hlen : c.WIDTH * c.HEIGHT ≤ image.length) :
    block_size c num_blocks = (c.HEIGHT : Int) / num_blocks * (c.WIDTH : Int) ∧
    0 ≤ block_size c num_blocks ∧ block_size c num_blocks < 2147483648 ∧
    (∀ b ∈ blocks num_blocks,
      start c num_blocks b = (b : Int) * ((c.HEIGHT : Int) / num_blocks) ∧
      end_ c num_blocks b = start c num_blocks b + (c.HEIGHT : Int) / num_blocks ∧
      0 ≤ (b : Int) * block_size c num_blocks ∧
      (b : Int) * block_size c num_blocks + block_size c num_blocks
        ≤ ((c.WIDTH * c.HEIGHT : Nat) : Int) ∧
      ∀ y ∈ forInt (start c num_blocks b) (end_ c num_blocks b), ∀ x : Nat, x < c.WIDTH →
        (flatIndex c (x : Int) y : Int) = y * (c.WIDTH : Int) + (x : Int) ∧
        flatIndex c (x : Int) y < c.WIDTH * c.HEIGHT) ∧
    (∀ w ∈ renderWrites rnd c num_blocks, w.1 < c.WIDTH * c.HEIGHT) ∧
    ∃ r, render rnd c num_blocks image = .ok r := by
  have hbs := block_size_eq hc h1 h2
  have hWH := hc.2.2
  have hsz : c.HEIGHT / num_blocks.toNat * c.WIDTH ≤ c.WIDTH * c.HEIGHT := by
    rw [Nat.mul_comm c.WIDTH]
    exact Nat.mul_le_mul_right _ (Nat.div_le_self _ _)
  refine ⟨?_, ?_, ?_, ?_, ?_, ?_⟩
  · rw [hbs, ← toNat_div_cast c.HEIGHT h1]
    push_cast
    rfl
  · rw [hbs]
    positivity
  · rw [hbs]
    omega
  · intro b hb
    have hb : b < num_blocks.toNat := by simpa [blocks] using hb
    have hle := block_rows_le (H := c.HEIGHT) hb
    refine ⟨?_, ?_, ?_, ?_, ?_⟩
    · rw [start_eq hc h1 h2 hb, ← toNat_div_cast c.HEIGHT h1]
      push_cast
      rfl
    · rw [start_eq hc h1 h2 hb, end_eq hc h1 h2 hb, ← toNat_div_cast c.HEIGHT h1]
      push_cast
      rfl
    · rw [hbs]
      positivity
    · rw [hbs]
      have a1 : (b * (c.HEIGHT / num_blocks.toNat) + c.HEIGHT / num_blocks.toNat) * c.WIDTH
          ≤ c.HEIGHT * c.WIDTH := Nat.mul_le_mul_right _ hle
      have a2 : (b * (c.HEIGHT / num_blocks.toNat) + c.HEIGHT / num_blocks.toNat) * c.WIDTH
          = b * (c.HEIGHT / num_blocks.toNat * c.WIDTH)
            + c.HEIGHT / num_blocks.toNat * c.WIDTH := by ring
      have a3 : c.HEIGHT * c.WIDTH = c.WIDTH * c.HEIGHT := Nat.mul_comm _ _
      have a4 : b * (c.HEIGHT / num_blocks.toNat * c.WIDTH)
            + c.HEIGHT / num_blocks.toNat * c.WIDTH ≤ c.WIDTH * c.HEIGHT := by omega
      exact_mod_cast a4
    · intro y hy x hx
      obtain ⟨b1, b2⟩ := (mem_block_rows hc h1 h2 hb y).1 hy
      have hy0 : y = ((y.toNat : Nat) : Int) := by omega
      have hyH : y.toNat < c.HEIGHT := by omega
      rw [hy0, flatIndex_natCast hc hx hyH]
      exact ⟨by push_cast; rfl, flat_lt hx hyH⟩
  · intro w hw
    rw [renderWrites_eq hc h1 h2] at hw
    obtain ⟨y, x, hy, hx, rfl⟩ := (mem_computeWrites rnd hc (Nat.mul_div_le _ _) w).1 hw
    have hle : num_blocks.toNat * (c.HEIGHT / num_blocks.toNat) ≤ c.HEIGHT :=
      Nat.mul_div_le _ _
    exact flat_lt hx (by omega)
  · obtain ⟨r, hr, _⟩ := render_ok rnd image hc h1 h2 hlen
    exact ⟨r, hr⟩

/-- C10 at `constants` with 16 blocks: `block_size` is `1024 * 16384`. -/
theorem block_loop_index_safe_witness :
    constants.fits ∧ block_size constants 16 = 16777216 :=
  ⟨by decide,
    (block_loop_index_safe binary64 constants 16 (malloc (fun _ => 0) (bytes constants))
      (by decide) (by decide) (by decide) (by rw [malloc_length]; decide)).1.trans
      (by decide)⟩

/-! ## The output file -/

theorem fmtD_of_lt {v : Nat} (h : v < 2147483648) : fmtD v = toString v := by
  unfold fmtD
  rw [toInt32_of_lt h]
  rfl

theorem fprintfHeader_eq {c : Config} (hW : c.WIDTH < 2147483648)
    (hH : c.HEIGHT < 2147483648) (hC : c.MAX_COLOR < 2147483648) :
    fprintfHeader c = strBytes (pgmHeader c.WIDTH c.HEIGHT c.MAX_COLOR) := by
  unfold fprintfHeader pgmHeader
  rw [fmtD_of_lt hW, fmtD_of_lt hH, fmtD_of_lt hC]
  rfl

/-- C7 (output serialisation).  For every buffer of at least `WIDTH*HEIGHT`
cells the file is the header `P5`, `#comment`, `WIDTH HEIGHT`, `MAX_COLOR`
(numbers in decimal, one line feed after each line) followed by the first
`WIDTH*HEIGHT` cells of the buffer and nothing else; the byte that follows the
header at distance `y*WIDTH+x` is the cell `(x, y)` (row-major order). -/
theorem pgm_file_bytes (c : Config) (image : List Nat) (hc : c.fits)
    (hC : c.MAX_COLOR < 2147483648) (hlen : c.WIDTH * c.HEIGHT ≤ image.length) :
    pgmFile c image
      = strBytes (pgmHeader c.WIDTH c.HEIGHT c.MAX_COLOR)
          ++ image.take (c.WIDTH * c.HEIGHT) ∧
    (pgmFile c image).length
      = (strBytes (pgmHeader c.WIDTH c.HEIGHT c.MAX_COLOR)).length + c.WIDTH * c.HEIGHT ∧
    ∀ y x : Nat, y < c.HEIGHT → x < c.WIDTH →
      (pgmFile c image)[(strBytes (pgmHeader c.WIDTH c.HEIGHT c.MAX_COLOR)).length
          + (y * c.WIDTH + x)]?
        = image[y * c.WIDTH + x]? := by
  have hWH := hc.2.2
  have he : pgmFile c image
      = strBytes (pgmHeader c.WIDTH c.HEIGHT c.MAX_COLOR)
          ++ image.take (c.WIDTH * c.HEIGHT) := by
    unfold pgmFile fwrite
    rw [fprintfHeader_eq (width_lt_of_fits hc) (height_lt_of_fits hc) hC,
      u32_of_lt (by omega)]
  refine ⟨he, ?_, ?_⟩
  · rw [he, List.length_append, List.length_take, Nat.min_eq_left hlen]
  · intro y x hy hx
    have hlt := flat_lt hx hy
    rw [he, List.getElem?_append_right (Nat.le_add_right _ _), Nat.add_sub_cancel_left,
      List.getElem?_take, if_pos hlt]

/-- C7 at the scenario of the specification: a 2×2 all-zero buffer with
`MAX_COLOR = 255` is written as `P5\n#comment\n2 2\n255\n` and four zero
bytes. -/
theorem pgm_file_bytes_witness :
    scenario2x2.fits ∧
    pgmFile scenario2x2 [0, 0, 0, 0]
      = [80, 53, 10, 35, 99, 111, 109, 109, 101, 110, 116, 10,
         50, 32, 50, 10, 50, 53, 53, 10, 0, 0, 0, 0] :=
  ⟨by decide,
    (pgm_file_bytes scenario2x2 [0, 0, 0, 0] (by decide) (by decide) (by decide)).1.trans
      (by decide)⟩

/-! ## The container `Data` -/

/-- For an array of at least one cell `operator[]` returns cell `i` for an
index within bounds and cell 0 otherwise. -/
theorem subscript_of_pos {ctype : Type} (length : Int) (cells : Nat → ctype)
    (hl : 1 ≤ length) :
    ∃ d, Data.new length cells = some d ∧ d.size = length ∧
      ∀ i : Int, d.subscript i
        = if 0 ≤ i ∧ i < length then some (cells i.toNat) else some (cells 0) := by
  have hneg : ¬ length < 0 := by omega
  refine ⟨⟨length, (List.range length.toNat).map cells⟩, ?_, rfl, ?_⟩
  · simp only [Data.new, if_neg hneg]
  · intro i
    unfold Data.subscript
    by_cases hi : 0 ≤ i ∧ i < length
    · have h1 : ¬ (i < 0 ∨ i ≥ length) := by omega
      have h2 : i.toNat < length.toNat := by omega
      rw [if_neg h1, if_pos hi]
      simp [h2]
    · have h1 : i < 0 ∨ i ≥ length := by omega
      have h2 : 0 < length.toNat := by omega
      rw [if_pos h1, if_neg hi]
      simp [h2]

/-- C8, at the failing input.  `Data(0)` constructs an object of length 0,
and on it `operator[]` reads `arr[0]`, outside the array, for every index. -/
theorem subscript_zero_length {ctype : Type} (cells : Nat → ctype) (i : Int) :
    ∃ d, Data.new 0 cells = some d ∧ d.size = 0 ∧ d.arr = [] ∧ d.subscript i = none := by
  refine ⟨⟨0, []⟩, rfl, rfl, rfl, ?_⟩
  unfold Data.subscript
  have h1 : i < 0 ∨ i ≥ (0 : Int) := by omega
  simp [h1]

/-! ## Execution of the issued operations -/

/-- The stores of the loop nest over the rows `a .. a+n` within the image. -/
theorem mem_computeWrites_rows (rnd : ℚ → ℚ) {c : Config} {a n : Nat} (hc : c.fits)
    (h : a + n ≤ c.HEIGHT) (w : Nat × Nat) :
    w ∈ computeWrites rnd c (a : Int) ((a + n : Nat) : Int) ↔
      ∃ k x : Nat, k < n ∧ x < c.WIDTH ∧
        w = ((a + k) * c.WIDTH + x, mandelbrot rnd c (x : Int) ((a + k : Nat) : Int)) := by
  unfold computeWrites rowWrites
  rw [forInt_natCast]
  simp only [List.mem_flatMap, List.mem_map, List.mem_range]
  constructor
  · rintro ⟨_, ⟨k, hk, rfl⟩, x, hx, rfl⟩
    exact ⟨k, x, hk, hx, by rw [flatIndex_natCast hc hx (by omega)]⟩
  · rintro ⟨k, x, hk, hx, rfl⟩
    exact ⟨_, ⟨k, hk, rfl⟩, x, hx, by rw [flatIndex_natCast hc hx (by omega)]⟩

theorem computeWrites_rows_indices (rnd : ℚ → ℚ) {c : Config} {a n : Nat} (hc : c.fits)
    (h : a + n ≤ c.HEIGHT) (j : Nat) :
    j ∈ (computeWrites rnd c (a : Int) ((a + n : Nat) : Int)).map Prod.fst ↔
      a * c.WIDTH ≤ j ∧ j < (a + n) * c.WIDTH := by
  have hW := hc.1
  have hmem := mem_computeWrites_rows rnd hc h
  constructor
  · intro hin
    obtain ⟨w, hw, rfl⟩ := List.mem_map.1 hin
    obtain ⟨k, x, hk, hx, rfl⟩ := (hmem w).1 hw
    have a1 : a * c.WIDTH ≤ (a + k) * c.WIDTH := Nat.mul_le_mul_right _ (by omega)
    have a2 : (a + k + 1) * c.WIDTH ≤ (a + n) * c.WIDTH :=
      Nat.mul_le_mul_right _ (by omega)
    have a3 : (a + k + 1) * c.WIDTH = (a + k) * c.WIDTH + c.WIDTH := by ring
    simp only
    omega
  · rintro ⟨hlo, hhi⟩
    have a1 : a ≤ j / c.WIDTH := (Nat.le_div_iff_mul_le hW).2 hlo
    have a2 : j / c.WIDTH < a + n := (Nat.div_lt_iff_lt_mul hW).2 hhi
    have a3 : j / c.WIDTH * c.WIDTH + j % c.WIDTH = j := Nat.div_add_mod' j c.WIDTH
    refine List.mem_map.2 ⟨_, (hmem _).2 ⟨j / c.WIDTH - a, j % c.WIDTH, by omega,
      Nat.mod_lt _ hW, rfl⟩, ?_⟩
    have a4 : a + (j / c.WIDTH - a) = j / c.WIDTH := by omega
    simp only [a4, a3]

/-- The loop nest over the rows `a .. a+n` applied to a buffer of at least
`WIDTH*HEIGHT` cells: the cells of those rows receive their pixels, the other
cells are unchanged. -/
theorem storeAll_rows (rnd : ℚ → ℚ) {c : Config} {a n : Nat} (buf : List Nat)
    (hc : c.fits) (h : a + n ≤ c.HEIGHT) (hlen : c.WIDTH * c.HEIGHT ≤ buf.length) :
    ∃ r, storeAll buf (computeWrites rnd c (a : Int) ((a + n : Nat) : Int)) = .ok r ∧
      r.length = buf.length ∧
      ∀ j, r[j]? = if a * c.WIDTH ≤ j ∧ j < (a + n) * c.WIDTH then some (pixelAt rnd c j)
        else buf[j]? := by
  have hmem := mem_computeWrites_rows rnd hc h
  obtain ⟨r, hr, hl, hget⟩ := storeAll_spec (pixelAt rnd c)
    (computeWrites rnd c (a : Int) ((a + n : Nat) : Int)) buf (by
      intro w hw
      obtain ⟨k, x, hk, hx, rfl⟩ := (hmem w).1 hw
      have hlt := flat_lt (H := c.HEIGHT) hx (show a + k < c.HEIGHT by omega)
      obtain ⟨e1, e2⟩ := div_mod_flat (y := a + k) hx
      refine ⟨by simp only; omega, ?_⟩
      simp only [pixelAt, e1, e2])
  refine ⟨r, hr, hl, ?_⟩
  intro j
  rw [hget j]
  by_cases hj : a * c.WIDTH ≤ j ∧ j < (a + n) * c.WIDTH
  · rw [if_pos ((computeWrites_rows_indices rnd hc h j).2 hj), if_pos hj]
  · rw [if_neg (fun hin => hj ((computeWrites_rows_indices rnd hc h j).1 hin)), if_neg hj]

theorem copyCells_length (src dst : List Nat) (off len : Nat) :
    (copyCells src dst off len).length = dst.length := by
  simp [copyCells]

theorem copyCells_getElem? (src dst : List Nat) (off len : Nat)
    (hs : off + len ≤ src.length) (hd : off + len ≤ dst.length) (j : Nat) :
    (copyCells src dst off len)[j]?
      = if off ≤ j ∧ j < off + len then src[j]? else dst[j]? := by
  unfold copyCells
  by_cases hj : j < dst.length
  · rw [List.getElem?_map, List.getElem?_range hj]
    by_cases hin : off ≤ j ∧ j < off + len
    · have hjs : j < src.length := by omega
      simp [hin, hjs, List.getD_eq_getElem?_getD]
    · simp [hin, hj, List.getD_eq_getElem?_getD]
  · have hout : ¬ (off ≤ j ∧ j < off + len) := by omega
    rw [if_neg hout, List.getElem?_eq_none (by simpa using hj),
      List.getElem?_eq_none (by omega)]

/-- An operation within bounds succeeds on copies of the sizes of the program,
keeps those sizes, and changes each cell as `cellStep` says. -/
theorem exec_cell (rnd : ℚ → ℚ) {c : Config} (op : Op) (m : Mem) (hc : c.fits)
    (hdev : m.device.length = c.WIDTH * c.HEIGHT)
    (hhost : c.WIDTH * c.HEIGHT ≤ m.host.length) (hop : op.inBounds c) :
    ∃ m1, op.exec rnd c m = .ok m1 ∧ m1.device.length = m.device.length ∧
      m1.host.length = m.host.length ∧
      ∀ j, (m1.host[j]?, m1.device[j]?)
        = cellStep c (pixelAt rnd c j) j (m.host[j]?, m.device[j]?) op := by
  cases op with
  | parallelLoop q lo hi =>
    obtain ⟨h0, h1, h2⟩ := hop
    have ea : lo = ((lo.toNat : Nat) : Int) := by omega
    have eb : hi = ((lo.toNat + (hi - lo).toNat : Nat) : Int) := by omega
    have hrows : lo.toNat + (hi - lo).toNat ≤ c.HEIGHT := by omega
    obtain ⟨r, hr, hl, hget⟩ := storeAll_rows rnd m.device hc hrows (by omega)
    rw [← ea, ← eb] at hr
    refine ⟨⟨m.host, r⟩, ?_, hl, rfl, ?_⟩
    · simp only [Op.exec, hr]
    · intro j
      simp only [cellStep]
      rw [hget j]
      have e1 : (lo.toNat * c.WIDTH ≤ j ∧ j < (lo.toNat + (hi - lo).toNat) * c.WIDTH)
          ↔ (lo * (c.WIDTH : Int) ≤ (j : Int) ∧ (j : Int) < hi * (c.WIDTH : Int)) := by
        have c1 : lo * (c.WIDTH : Int) = ((lo.toNat * c.WIDTH : Nat) : Int) := by
          push_cast
          rw [← ea]
        have c2 : hi * (c.WIDTH : Int)
            = (((lo.toNat + (hi - lo).toNat) * c.WIDTH : Nat) : Int) := by
          rw [Nat.cast_mul, ← eb]
        rw [c1, c2]
        omega
      by_cases hj : lo * (c.WIDTH : Int) ≤ (j : Int) ∧ (j : Int) < hi * (c.WIDTH : Int)
      · rw [if_pos (e1.2 hj), if_pos hj]
      · rw [if_neg (fun h => hj (e1.1 h)), if_neg hj]
  | updateSelf q offset len =>
    obtain ⟨h0, h1, h2⟩ := hop
    have hcond : 0 ≤ offset ∧ 0 ≤ len ∧ offset + len ≤ (m.device.length : Int)
        ∧ offset + len ≤ (m.host.length : Int) := by
      rw [hdev]
      refine ⟨h0, h1, h2, ?_⟩
      have : ((c.WIDTH * c.HEIGHT : Nat) : Int) ≤ (m.host.length : Int) := by
        exact_mod_cast hhost
      omega
    refine ⟨⟨copyCells m.device m.host offset.toNat len.toNat, m.device⟩, ?_, rfl,
      copyCells_length _ _ _ _, ?_⟩
    · simp only [Op.exec, if_pos hcond]
    · intro j
      simp only [cellStep]
      rw [copyCells_getElem? _ _ _ _ (by omega) (by omega)]
      by_cases hj : offset ≤ (j : Int) ∧ (j : Int) < offset + len
      · rw [if_pos (by omega), if_pos hj]
      · rw [if_neg (by omega), if_neg hj]
  | updateDevice q offset len =>
    obtain ⟨h0, h1, h2⟩ := hop
    have hcond : 0 ≤ offset ∧ 0 ≤ len ∧ offset + len ≤ (m.device.length : Int)
        ∧ offset + len ≤ (m.host.length : Int) := by
      rw [hdev]
      refine ⟨h0, h1, h2, ?_⟩
      have : ((c.WIDTH * c.HEIGHT : Nat) : Int) ≤ (m.host.length : Int) := by
        exact_mod_cast hhost
      omega
    refine ⟨⟨m.host, copyCells m.host m.device offset.toNat len.toNat⟩, ?_,
      copyCells_length _ _ _ _, rfl, ?_⟩
    · simp only [Op.exec, if_pos hcond]
    · intro j
      simp only [cellStep]
      rw [copyCells_getElem? _ _ _ _ (by omega) (by omega)]
      by_cases hj : offset ≤ (j : Int) ∧ (j : Int) < offset + len
      · rw [if_pos (by omega), if_pos hj]
      · rw [if_neg (by omega), if_neg hj]

/-- A list of operations within bounds runs without a fault, and the cell `j`
of the two copies ends as the fold of `cellStep` over the list says. -/
theorem execAll_cell (rnd : ℚ → ℚ) {c : Config} (hc : c.fits) :
    ∀ (ops : List Op) (m : Mem), m.device.length = c.WIDTH * c.HEIGHT →
      c.WIDTH * c.HEIGHT ≤ m.host.length → (∀ op ∈ ops, op.inBounds c) →
      ∃ m1, execAll rnd c ops m = .ok m1 ∧ m1.host.length = m.host.length ∧
        ∀ j, (m1.host[j]?, m1.device[j]?)
          = ops.foldl (cellStep c (pixelAt rnd c j) j) (m.host[j]?, m.device[j]?) := by
  intro ops
  induction ops with
  | nil =>
    intro m _ _ _
    exact ⟨m, rfl, rfl, fun _ => rfl⟩
  | cons op ops ih =>
    intro m hdev hhost hall
    obtain ⟨m1, he, hd1, hh1, hcell⟩ :=
      exec_cell rnd op m hc hdev hhost (hall op (List.mem_cons_self _ _))
    obtain ⟨m2, he2, hh2, hcell2⟩ := ih m1 (by rw [hd1, hdev]) (by rw [hh1]; exact hhost)
      (fun o ho => hall o (List.mem_cons_of_mem _ ho))
    refine ⟨m2, ?_, by rw [hh2, hh1], ?_⟩
    · simp only [execAll, he]
      exact he2
    · intro j
      rw [hcell2 j, hcell j]
      rfl

/-! ## The order of execution keeps the order of each queue -/

theorem takeQueue_some {q : Nat} {ops : List Op} {o : Op} {rest : List Op}
    (h : takeQueue q ops = some (o, rest)) :
    ∃ pre post, ops = pre ++ o :: post ∧ rest = pre ++ post ∧ o.queue = q ∧
      ∀ p ∈ pre, p.queue ≠ q := by
  induction ops generalizing rest with
  | nil => simp [takeQueue] at h
  | cons op ops ih =>
    unfold takeQueue at h
    by_cases hq : op.queue = q
    · rw [if_pos hq] at h
      simp only [Option.some.injEq, Prod.mk.injEq] at h
      obtain ⟨rfl, rfl⟩ := h
      exact ⟨[], ops, rfl, rfl, hq, by simp⟩
    · rw [if_neg hq] at h
      cases ht : takeQueue q ops with
      | none => rw [ht] at h; simp at h
      | some pr =>
        obtain ⟨o1, rest1⟩ := pr
        rw [ht] at h
        simp only [Option.some.injEq, Prod.mk.injEq] at h
        obtain ⟨rfl, rfl⟩ := h
        obtain ⟨pre, post, e1, e2, e3, e4⟩ := ih ht
        refine ⟨op :: pre, post, by rw [e1]; rfl, by rw [e2]; rfl, e3, ?_⟩
        intro p hp
        rcases List.mem_cons.1 hp with rfl | hp
        · exact hq
        · exact e4 p hp

/-- Every order produced by `serve` executes the operations of each queue in
their order of issue. -/
theorem serve_keeps_queue_order (picks : List Nat) :
    ∀ (ops : List Op) (q : Nat),
      (serve picks ops).filter (fun o => decide (o.queue = q))
        = ops.filter (fun o => decide (o.queue = q)) := by
  induction picks with
  | nil => intro ops q; rfl
  | cons p picks ih =>
    intro ops q
    unfold serve
    cases ht : takeQueue p ops with
    | none => exact ih ops q
    | some pr =>
      obtain ⟨o, rest⟩ := pr
      obtain ⟨pre, post, e1, e2, e3, e4⟩ := takeQueue_some ht
      simp only
      rw [List.filter_cons, ih rest q, e1, e2, List.filter_append, List.filter_append,
        List.filter_cons]
      by_cases hq : o.queue = q
      · have hpre : pre.filter (fun o => decide (o.queue = q)) = [] := by
          rw [List.filter_eq_nil_iff]
          intro a ha
          have := e4 a ha
          simp only [decide_eq_true_eq]
          intro h
          exact this (h.trans (hq.symm.trans e3))
        simp [hq, hpre]
      · simp [hq]

/-- Every order produced by `serve` executes each issued operation once. -/
theorem serve_perm (picks : List Nat) :
    ∀ ops : List Op, List.Perm (serve picks ops) ops := by
  induction picks with
  | nil => intro ops; exact List.Perm.refl _
  | cons p picks ih =>
    intro ops
    unfold serve
    cases ht : takeQueue p ops with
    | none => exact ih ops
    | some pr =>
      obtain ⟨o, rest⟩ := pr
      obtain ⟨pre, post, e1, e2, _, _⟩ := takeQueue_some ht
      simp only
      rw [e1]
      refine List.Perm.trans (List.Perm.cons o (ih rest)) ?_
      rw [e2]
      exact List.perm_middle.symm

/-! ## A transfer that overtakes its compute loop -/

theorem mandelbrot_ne_one {rnd : ℚ → ℚ} (hr : IsRounding rnd) (Px Py : Int) :
    mandelbrot rnd constants Px Py ≠ 1 := by
  have hi := iterations_le rnd constants Px Py
  have he : mandelbrot rnd constants Px Py
      = constants.MAX_COLOR * iterations rnd constants Px Py / constants.MAX_ITERS := by
    unfold mandelbrot
    exact toUChar_scaled hr (C := constants.MAX_COLOR) (M := constants.MAX_ITERS)
      (by decide) (by decide) (by decide) hi
  rw [he]
  generalize iterations rnd constants Px Py = i at hi
  have h1 : constants.MAX_COLOR = 255 := rfl
  have h2 : constants.MAX_ITERS = 50 := rfl
  rw [h1, h2] at *
  omega

theorem task4_served_inBounds :
    ∀ op ∈ serve [0, 0, 0] (task4.issued constants 16), op.inBounds constants := by
  decide

theorem task4_served_cell (p : Nat) (cell : Option Nat × Option Nat) :
    (serve [0, 0, 0] (task4.issued constants 16)).foldl
        (cellStep constants p 33554432) cell
      = (cell.2, some p) := by
  rfl

theorem task4_single_inBounds :
    ∀ op ∈ serve [0, 0, 0] (task4.issued constants 1), op.inBounds constants := by
  decide

theorem task4_single_cell (p : Nat) (cell : Option Nat × Option Nat) :
    (serve [0, 0, 0] (task4.issued constants 1)).foldl
        (cellStep constants p 33554432) cell
      = (some p, some p) := by
  rfl

/-- A run of `task4` whose served operations are within bounds ends normally,
and the cell `j` of its buffer is the host component of the fold of `cellStep`
from the cells after the warm-up region. -/
theorem task4_main_cell (rnd : ℚ → ℚ) (c : Config) (num_blocks : Int)
    (heap devHeap : Nat → Nat) (picks : List Nat) (hc : c.fits)
    (hnz : toU32 num_blocks ≠ 0)
    (hall : ∀ op ∈ serve picks (task4.issued c num_blocks), op.inBounds c) :
    ∃ r : Run, task4.main rnd c (some num_blocks) heap devHeap picks = .ok r ∧
      ∀ j, r.image[j]?
        = ((serve picks (task4.issued c num_blocks)).foldl
            (cellStep c (pixelAt rnd c j) j)
            ((((malloc heap (bytes c)).set 0 0).set 1 0)[j]?,
              (malloc devHeap (c.WIDTH * c.HEIGHT))[j]?)).1 := by
  have hb := bytes_eq hc
  have hp := pixels_pos hc
  have hl0 : (malloc heap (bytes c)).length = bytes c := malloc_length _ _
  have hw := warmup_ok (malloc heap (bytes c)) (by omega)
  have hu : u32 (c.WIDTH * c.HEIGHT) = c.WIDTH * c.HEIGHT :=
    u32_of_lt (by have := hc.2.2; omega)
  have hdl : (malloc devHeap (c.WIDTH * c.HEIGHT)).length = c.WIDTH * c.HEIGHT :=
    malloc_length _ _
  have hhl : c.WIDTH * c.HEIGHT ≤ (((malloc heap (bytes c)).set 0 0).set 1 0).length := by
    rw [List.length_set, List.length_set, hl0]
    omega
  obtain ⟨m1, he, _, hcell⟩ := execAll_cell rnd hc
    (serve picks (task4.issued c num_blocks))
    ⟨((malloc heap (bytes c)).set 0 0).set 1 0, malloc devHeap (c.WIDTH * c.HEIGHT)⟩
    hdl hhl hall
  refine ⟨⟨m1.host, pgmFile c m1.host⟩, ?_, ?_⟩
  · simp only [task4.main, hw, if_neg hnz, hu, he]
  · intro j
    exact congrArg Prod.fst (hcell j)

/-- C2, at the failing input.  The default run of `task4` (16 blocks) at
`constants`, with the device memory holding the byte 1 and the runtime serving
queue 0 three times before the rest: block 2's transfer (queue 0) is executed
before block 2's compute loop (queue 2), so the first cell of block 2, cell
`33554432` of pixel `(0, 2048)`, ends as the stale byte 1.  The run with
`num_blocks = 1` under the same conditions stores the pixel there, which is
never 1: the two buffers differ. -/
theorem task4_stale_transfer :
    ∃ r16 r1 : Run,
      task4.main binary64 constants none (fun _ => 0) (fun _ => 1) [0, 0, 0] = .ok r16 ∧
      task4.main binary64 constants (some 1) (fun _ => 0) (fun _ => 1) [0, 0, 0] = .ok r1 ∧
      r16.image[33554432]? = some 1 ∧
      r1.image[33554432]? = some (mandelbrot binary64 constants 0 2048) ∧
      r16.image.take (constants.WIDTH * constants.HEIGHT)
        ≠ r1.image.take (constants.WIDTH * constants.HEIGHT) := by
  obtain ⟨r16, e16, c16⟩ := task4_main_cell binary64 constants 16 (fun _ => 0)
    (fun _ => 1) [0, 0, 0] (by decide) (by decide) task4_served_inBounds
  obtain ⟨r1, e1, c1⟩ := task4_main_cell binary64 constants 1 (fun _ => 0)
    (fun _ => 1) [0, 0, 0] (by decide) (by decide) task4_single_inBounds
  have hlt : 33554432 < constants.WIDTH * constants.HEIGHT := by decide
  have hdev : (malloc (fun _ => 1) (constants.WIDTH * constants.HEIGHT))[33554432]?
      = some 1 := by
    unfold malloc
    rw [List.getElem?_map, List.getElem?_range hlt]
    rfl
  have h16 : r16.image[33554432]? = some 1 := by
    have h := c16 33554432
    rw [task4_served_cell, hdev] at h
    exact h
  have hpix : pixelAt binary64 constants 33554432 = mandelbrot binary64 constants 0 2048 := by
    unfold pixelAt
    rfl
  have h1 : r1.image[33554432]? = some (mandelbrot binary64 constants 0 2048) := by
    have h := c1 33554432
    rw [task4_single_cell] at h
    rw [h, hpix]
  refine ⟨r16, r1, (task4_main_default _ _ _ _ _).trans e16, e1, h16, h1, ?_⟩
  intro heq
  have hget : (r16.image.take (constants.WIDTH * constants.HEIGHT))[33554432]?
      = (r1.image.take (constants.WIDTH * constants.HEIGHT))[33554432]? := by rw [heq]
  rw [List.getElem?_take, List.getElem?_take, if_pos hlt, h16, h1] at hget
  exact mandelbrot_ne_one binary64_isRounding 0 2048 (Option.some.inj hget).symm

/-- In the order of issue the same run of `task4` stores the pixel into that
cell: the stale byte comes from the order of execution alone. -/
theorem task4_issue_order_cell :
    ∃ r : Run,
      task4.main binary64 constants none (fun _ => 0) (fun _ => 1) [] = .ok r ∧
      r.image[33554432]? = some (mandelbrot binary64 constants 0 2048) := by
  obtain ⟨r, e, hcell⟩ := task4_main_cell binary64 constants 16 (fun _ => 0)
    (fun _ => 1) [] (by decide) (by decide) (by decide)
  have hfold : ∀ (p : Nat) (cell : Option Nat × Option Nat),
      (serve [] (task4.issued constants 16)).foldl (cellStep constants p 33554432) cell
        = (some p, some p) := fun _ _ => rfl
  refine ⟨r, (task4_main_default _ _ _ _ _).trans e, ?_⟩
  have h := hcell 33554432
  rw [hfold] at h
  rw [h]
  rfl

/-- A run of `task5` whose served operations are within bounds ends normally,
and the cell `j` of its buffer is the host component of the fold of `cellStep`
from the cells of the allocated memory. -/
theorem task5_main_cell (rnd : ℚ → ℚ) (c : Config) (heap devHeap : Nat → Nat)
    (picks : List Nat) (hc : c.fits)
    (hall : ∀ op ∈ serve picks (task5.issued c 8), op.inBounds c) :
    ∃ r : Run, task5.main rnd c heap devHeap picks = .ok r ∧
      ∀ j, r.image[j]?
        = ((serve picks (task5.issued c 8)).foldl (cellStep c (pixelAt rnd c j) j)
            ((malloc heap (bytes c))[j]?, (malloc devHeap (c.WIDTH * c.HEIGHT))[j]?)).1 := by
  have hb := bytes_eq hc
  have hl0 : (malloc heap (bytes c)).length = bytes c := malloc_length _ _
  have hu : u32 (c.WIDTH * c.HEIGHT) = c.WIDTH * c.HEIGHT :=
    u32_of_lt (by have := hc.2.2; omega)
  have hdl : (malloc devHeap (c.WIDTH * c.HEIGHT)).length = c.WIDTH * c.HEIGHT :=
    malloc_length _ _
  obtain ⟨m1, he, _, hcell⟩ := execAll_cell rnd hc (serve picks (task5.issued c 8))
    ⟨malloc heap (bytes c), malloc devHeap (c.WIDTH * c.HEIGHT)⟩ hdl
    (by rw [hl0]; omega) hall
  refine ⟨⟨m1.host, pgmFile c m1.host⟩, ?_, ?_⟩
  · simp only [task5.main, hu, he]
  · intro j
    exact congrArg Prod.fst (hcell j)

/-- The sibling `task5`, which issues the three operations of a block on one
queue, stores the pixel into that cell under the same conditions. -/
theorem task5_served_cell :
    ∃ r : Run,
      task5.main binary64 constants (fun _ => 0) (fun _ => 1) [0, 0, 0] = .ok r ∧
      r.image[33554432]? = some (mandelbrot binary64 constants 0 2048) := by
  obtain ⟨r, e, hcell⟩ := task5_main_cell binary64 constants (fun _ => 0)
    (fun _ => 1) [0, 0, 0] (by decide) (by decide)
  have hfold : ∀ (p : Nat) (cell : Option Nat × Option Nat),
      (serve [0, 0, 0] (task5.issued constants 8)).foldl (cellStep constants p 33554432) cell
        = (some p, some p) := fun _ _ => rfl
  refine ⟨r, e, ?_⟩
  have h := hcell 33554432
  rw [hfold] at h
  rw [h]
  rfl
